import Mathlib

/-!
Verification of the Hangul fuzzy-search plugin core (`src/hangulIndex.ts`)
against its natural-language specification.

The orchestration layer (index lifecycle, the four query strategies, result
merging and scoring) is translated directly from `src/hangulIndex.ts`.
The syllable codec (`Hangul.disassemble` / `Hangul.assemble`) is translated
from the `hangul-js` implementation vendored in the repository's bundled
`src/main.js` (tables `CHO`/`JUNG`/`JONG`/`CONSONANTS`, the `_makeHash`
lookups, per-character `disassemble`, and the `assemble` stage machine with
its `_makeHangul` flush).
-/

namespace HangulSpec

/-! ## Syllable codec (translated from the vendored `hangul-js` in `src/main.js`) -/

/-- Translation of the `CHO` table from the vendored `hangul-js`: the 19
leading consonants in block order. -/
def CHO : List Char :=
  ['ㄱ', 'ㄲ', 'ㄴ', 'ㄷ', 'ㄸ', 'ㄹ', 'ㅁ', 'ㅂ', 'ㅃ', 'ㅅ',
   'ㅆ', 'ㅇ', 'ㅈ', 'ㅉ', 'ㅊ', 'ㅋ', 'ㅌ', 'ㅍ', 'ㅎ']

/-- Translation of the `COMPLETE_JUNG` table from the vendored `hangul-js`:
the 21 vowels in block order (the vendored mixed `JUNG` table stores the 7
compound entries as unit pairs; here the units are recovered through
`jungUnitsOf`). -/
def JUNG : List Char :=
  ['ㅏ', 'ㅐ', 'ㅑ', 'ㅒ', 'ㅓ', 'ㅔ', 'ㅕ', 'ㅖ', 'ㅗ', 'ㅘ', 'ㅙ',
   'ㅚ', 'ㅛ', 'ㅜ', 'ㅝ', 'ㅞ', 'ㅟ', 'ㅠ', 'ㅡ', 'ㅢ', 'ㅣ']

/-- Translation of the `COMPLETE_JONG` table from the vendored `hangul-js`
without its index-0 empty entry: trailing index `i + 1` of a composed block
refers to position `i` here (the vendored mixed `JONG` table stores the 11
compound entries as unit pairs; here the units are recovered through
`jongUnitsOf`). -/
def JONGT : List Char :=
  ['ㄱ', 'ㄲ', 'ㄳ', 'ㄴ', 'ㄵ', 'ㄶ', 'ㄷ', 'ㄹ', 'ㄺ', 'ㄻ', 'ㄼ',
   'ㄽ', 'ㄾ', 'ㄿ', 'ㅀ', 'ㅁ', 'ㅂ', 'ㅄ', 'ㅅ', 'ㅆ', 'ㅇ', 'ㅈ',
   'ㅊ', 'ㅋ', 'ㅌ', 'ㅍ', 'ㅎ']

/-- Translation of `COMPLEX_VOWELS` from the vendored `hangul-js`: the 7
compound vowels as (first, second, compound). -/
def JUNGPAIRS : List (Char × Char × Char) :=
  [('ㅗ', 'ㅏ', 'ㅘ'), ('ㅗ', 'ㅐ', 'ㅙ'), ('ㅗ', 'ㅣ', 'ㅚ'),
   ('ㅜ', 'ㅓ', 'ㅝ'), ('ㅜ', 'ㅔ', 'ㅞ'), ('ㅜ', 'ㅣ', 'ㅟ'),
   ('ㅡ', 'ㅣ', 'ㅢ')]

/-- Translation of `COMPLEX_CONSONANTS` from the vendored `hangul-js`: the
11 compound trailing consonants as (first, second, compound). -/
def JONGPAIRS : List (Char × Char × Char) :=
  [('ㄱ', 'ㅅ', 'ㄳ'), ('ㄴ', 'ㅈ', 'ㄵ'), ('ㄴ', 'ㅎ', 'ㄶ'),
   ('ㄹ', 'ㄱ', 'ㄺ'), ('ㄹ', 'ㅁ', 'ㄻ'), ('ㄹ', 'ㅂ', 'ㄼ'),
   ('ㄹ', 'ㅅ', 'ㄽ'), ('ㄹ', 'ㅌ', 'ㄾ'), ('ㄹ', 'ㅍ', 'ㄿ'),
   ('ㄹ', 'ㅎ', 'ㅀ'), ('ㅂ', 'ㅅ', 'ㅄ')]

/-- Translation of `CONSONANTS` from the vendored `hangul-js`: the 30
standalone compatibility consonants. -/
def CONSONANTS : List Char :=
  ['ㄱ', 'ㄲ', 'ㄳ', 'ㄴ', 'ㄵ', 'ㄶ', 'ㄷ', 'ㄸ', 'ㄹ', 'ㄺ',
   'ㄻ', 'ㄼ', 'ㄽ', 'ㄾ', 'ㄿ', 'ㅀ', 'ㅁ', 'ㅂ', 'ㅃ', 'ㅄ',
   'ㅅ', 'ㅆ', 'ㅇ', 'ㅈ', 'ㅉ', 'ㅊ', 'ㅋ', 'ㅌ', 'ㅍ', 'ㅎ']

/-- A composed syllable block of the script (the `[가-힣]` range of the
source's regular expressions, and `_isHangul` of the vendored
`hangul-js`). -/
def isBlock (c : Char) : Bool :=
  0xAC00 ≤ c.toNat && c.toNat ≤ 0xD7A3

/-- Split a compound unit into its two parts using one of the tables. -/
def splitPair (table : List (Char × Char × Char)) (c : Char) : Option (Char × Char) :=
  (table.find? (fun p => p.2.2 == c)).map (fun p => (p.1, p.2.1))

/-- Combine two units into a compound unit using one of the tables
(`_isJungJoinable` / `_isJongJoinable` of the vendored `hangul-js`, which
return the joined code or `false`). -/
def combinePair (table : List (Char × Char × Char)) (a b : Char) : Option Char :=
  (table.find? (fun p => p.1 == a && p.2.1 == b)).map (fun p => p.2.2)

/-- Atomic units of the vendored mixed `JUNG` table entry for a vowel: a
compound vowel is stored as its two simple parts, a simple vowel as
itself. -/
def jungUnitsOf (j : Char) : List Char :=
  match splitPair JUNGPAIRS j with
  | some (a, b) => [a, b]
  | none => [j]

/-- Atomic units of the vendored mixed `JONG` table entry for trailing index
`t`: index 0 is the empty entry, a compound trailing consonant is stored as
its two simple parts, a simple one as itself. -/
def jongUnitsOf (t : Nat) : List Char :=
  if t = 0 then []
  else
    match JONGT.get? (t - 1) with
    | none => []
    | some j =>
      match splitPair JONGPAIRS j with
      | some (a, b) => [a, b]
      | none => [j]

/-- Translation of the `CHO_HASH` lookup from the vendored `hangul-js`:
index of a character in the leading-consonant table; `_makeHash` seeds every
hash with the binding `0 ↦ 0`, so code point 0 always maps to index 0. -/
def choHash (c : Char) : Option Nat :=
  if c.toNat = 0 then some 0 else CHO.findIdx? (· == c)

/-- Translation of the `JUNG_HASH` lookup from the vendored `hangul-js`. -/
def jungHash (c : Char) : Option Nat :=
  if c.toNat = 0 then some 0 else JUNG.findIdx? (· == c)

/-- Translation of the `JONG_HASH` lookup from the vendored `hangul-js`: the
vendored table has the empty string at index 0 (skipped by `_makeHash`), so
a trailing consonant character maps to its 1-based trailing index. -/
def jongHash (c : Char) : Option Nat :=
  if c.toNat = 0 then some 0 else (JONGT.findIdx? (· == c)).map (· + 1)

/-- Translation of the `CONSONANTS_HASH` lookup from the vendored
`hangul-js`. -/
def consHash (c : Char) : Option Nat :=
  if c.toNat = 0 then some 0 else CONSONANTS.findIdx? (· == c)

/-- Translation of `_isCho` from the vendored `hangul-js`. -/
def isChoU (c : Char) : Bool := (choHash c).isSome

/-- Translation of `_isJung` from the vendored `hangul-js`. -/
def isJungU (c : Char) : Bool := (jungHash c).isSome

/-- Translation of `_isJong` from the vendored `hangul-js`. -/
def isJongU (c : Char) : Bool := (jongHash c).isSome

/-- Translation of `_isConsonant` from the vendored `hangul-js`. -/
def isConsU (c : Char) : Bool := (consHash c).isSome

/-- Translation of the per-character body of `disassemble` from the vendored
`hangul-js` (`src/main.js`): a composed block is split by arithmetic offset
from the script base into leading/vowel/trailing indices and expanded
through the compound tables; a bare compatibility consonant that is not a
leading consonant is expanded through the trailing table (so compound
consonants such as 'ㄳ' split into their two parts); a bare vowel is
expanded through the vowel table (compound vowels such as 'ㅘ' split); any
other character passes through unchanged. -/
def disassembleChar (c : Char) : List Char :=
  if isBlock c then
    let x := c.toNat - 0xAC00
    CHO.getD (x / 588) c :: (jungUnitsOf (JUNG.getD ((x % 588) / 28) c) ++ jongUnitsOf (x % 28))
  else if isConsU c then
    if isChoU c then [CHO.getD ((choHash c).getD 0) c]
    else jongUnitsOf ((jongHash c).getD 0)
  else if isJungU c then jungUnitsOf (JUNG.getD ((jungHash c).getD 0) c)
  else [c]

/-- Translation of the vendored `disassemble` over a text: concatenation of
the per-character decompositions. -/
def disassembleUnits (s : String) : List Char :=
  s.data.flatMap disassembleChar

/-- The vendored `disassemble` throws only on a `null` argument, so on a
string the boundary that `decomposeKoreanText` guards with `try`/`catch`
always returns successfully. -/
def disassembleE (s : String) : Except String (List Char) :=
  Except.ok (disassembleUnits s)

/-- Translation of `decomposeKoreanText` generalized over the underlying
disassembly boundary: the `catch` branch of the source returns the original
text when disassembly fails. -/
def decomposeWith (f : String → Except String (List Char)) (s : String) : String :=
  match f s with
  | Except.ok us => String.mk us
  | Except.error _ => s

/-- Translation of `decomposeKoreanText` from `src/hangulIndex.ts`:
`Hangul.disassemble(text).join('')` with the original text on error. -/
def decomposeKoreanText (s : String) : String :=
  decomposeWith disassembleE s

/-- The composed block with the given leading/vowel/trailing indices. -/
def blockOf (l v t : Nat) : Char :=
  Char.ofNat (0xAC00 + (l * 588 + v * 28 + t))

/-! ### The vendored `assemble` machine

Translated from the `assemble` function of the vendored `hangul-js`
(`src/main.js`): an imperative loop over the unit array with a `stage`
variable, a `previous_code` variable, a `jong_joined` flag, and a
`complete_index` marking how far the array has been flushed into output; the
`_makeHangul` helper greedily turns the un-flushed units into at most one
output character.  The loop state is modelled with the pending un-flushed
units `array[complete_index + 1 .. i - 1]` carried explicitly. -/

/-- The character produced by `String.fromCharCode` on the hash arithmetic
of `_makeHangul`: when one of the hash lookups is `undefined` the JavaScript
arithmetic yields `NaN` and `String.fromCharCode(NaN)` is the NUL
character. -/
def blockChar (lo vo tz : Option Nat) : Char :=
  match lo, vo, tz with
  | some l, some v, some t => Char.ofNat ((l * 21 + v) * 28 + t + 0xAC00)
  | _, _, _ => Char.ofNat 0

/-- The `JONG_HASH` lookup applied to `_makeHangul`'s `jong1` variable,
which is the number 0 until a trailing candidate is stored;
`JONG_HASH[0] = 0`. -/
def jongHashD : Option Char → Option Nat
  | none => some 0
  | some c => jongHash c

/-- Translation of `_makeHangul` from the vendored `assemble`
(`src/main.js`): greedily turn the pending units
`array[complete_index + 1 .. index]` into at most one output character;
every branch pushes once and then skips any surplus units (the
`complete_index = index` assignments).  `String.fromCharCode` of a failed
join (the value `false`) is the NUL character. -/
def flushSeg : List Char → Option Char
  | [] => none
  | [c1] => some c1
  | c1 :: c2 :: rest =>
    if isJungU c1 then
      if isJungU c2 then some ((combinePair JUNGPAIRS c1 c2).getD (Char.ofNat 0))
      else some c1
    else if !isChoU c1 then some c1
    else if isChoU c2 then some ((combinePair JONGPAIRS c1 c2).getD (Char.ofNat 0))
    else
      match rest with
      | [] => some (blockChar (choHash c1) (jungHash c2) (some 0))
      | c3 :: rest2 =>
        let s3 : Char × Option Char :=
          match combinePair JUNGPAIRS c2 c3 with
          | some w => (w, none)
          | none => (c2, some c3)
        match rest2 with
        | [] => some (blockChar (choHash c1) (jungHash s3.1) (jongHashD s3.2))
        | c4 :: rest3 =>
          let jong1 : Char :=
            match s3.2 with
            | none => c4
            | some j =>
              match combinePair JONGPAIRS j c4 with
              | some jj => jj
              | none => c4
          match rest3 with
          | [] => some (blockChar (choHash c1) (jungHash s3.1) (jongHash jong1))
          | c5 :: _ =>
            match combinePair JONGPAIRS jong1 c5 with
            | some jj => some (blockChar (choHash c1) (jungHash s3.1) (jongHash jj))
            | none => some (Char.ofNat 0)

/-- State of the vendored `assemble` loop: emitted characters, the `stage`
variable, the pending units `array[complete_index + 1 .. i - 1]`, the
`previous_code` variable, and the `jong_joined` flag. -/
structure AsmSt where
  res : List Char
  stage : Nat
  pending : List Char
  prev : Char
  jj : Bool

/-- Translation of a `_makeHangul(i - 1)` call: flush all pending units
(every `_makeHangul` call resets `jong_joined`). -/
def flushAll (st : AsmSt) : AsmSt :=
  { st with res := st.res ++ (flushSeg st.pending).toList, pending := [], jj := false }

/-- Translation of a `_makeHangul(i - 2)` call: flush the pending units
except the last, which becomes the start of the next pending group. -/
def flushKeepLast (st : AsmSt) : AsmSt :=
  { st with res := st.res ++ (flushSeg st.pending.dropLast).toList,
            pending := st.pending.drop (st.pending.length - 1), jj := false }

/-- Translation of a `_makeHangul(i)` call: flush the pending units together
with the current unit. -/
def flushThrough (st : AsmSt) (c : Char) : AsmSt :=
  { st with res := st.res ++ (flushSeg (st.pending ++ [c])).toList, pending := [], jj := false }

/-- The `stage` dispatch of the vendored `assemble` loop for a unit that is
a leading, vowel, or trailing jamo; the current unit joins the pending group
and `previous_code` is updated. -/
def asmStepJamo (st : AsmSt) (c : Char) : AsmSt :=
  match st.stage with
  | 0 =>
    if isChoU c then { st with stage := 1, pending := st.pending ++ [c], prev := c }
    else if isJungU c then { st with stage := 4, pending := st.pending ++ [c], prev := c }
    else { st with pending := st.pending ++ [c], prev := c }
  | 1 =>
    if isJungU c then { st with stage := 2, pending := st.pending ++ [c], prev := c }
    else if (combinePair JONGPAIRS st.prev c).isSome then
      { st with stage := 5, pending := st.pending ++ [c], prev := c }
    else
      let st1 := flushAll st
      { st1 with pending := [c], prev := c }
  | 2 =>
    if isJongU c then { st with stage := 3, pending := st.pending ++ [c], prev := c }
    else if isJungU c then
      if (combinePair JUNGPAIRS st.prev c).isSome then
        { st with pending := st.pending ++ [c], prev := c }
      else
        let st1 := flushAll st
        { st1 with stage := 4, pending := [c], prev := c }
    else
      let st1 := flushAll st
      { st1 with stage := 1, pending := [c], prev := c }
  | 3 =>
    if isJongU c then
      if !st.jj && (combinePair JONGPAIRS st.prev c).isSome then
        { st with jj := true, pending := st.pending ++ [c], prev := c }
      else
        let st1 := flushAll st
        { st1 with stage := 1, pending := [c], prev := c }
    else if isChoU c then
      let st1 := flushAll st
      { st1 with stage := 1, pending := [c], prev := c }
    else if isJungU c then
      let st1 := flushKeepLast st
      { st1 with stage := 2, pending := st1.pending ++ [c], prev := c }
    else { st with pending := st.pending ++ [c], prev := c }
  | 4 =>
    if isJungU c then
      if (combinePair JUNGPAIRS st.prev c).isSome then
        let st1 := flushThrough st c
        { st1 with stage := 0, prev := c }
      else
        let st1 := flushAll st
        { st1 with pending := [c], prev := c }
    else
      let st1 := flushAll st
      { st1 with stage := 1, pending := [c], prev := c }
  | 5 =>
    if isJungU c then
      let st1 := flushKeepLast st
      { st1 with stage := 2, pending := st1.pending ++ [c], prev := c }
    else
      let st1 := flushAll st
      { st1 with stage := 1, pending := [c], prev := c }
  | _ => { st with pending := st.pending ++ [c], prev := c }

/-- One iteration of the vendored `assemble` loop: a unit that is neither a
leading, vowel, nor trailing jamo flushes the pending group, is emitted on
its own, and resets the stage (skipping the `previous_code` update, as the
source's `continue` does); any other unit goes through the stage
dispatch. -/
def asmStep (st : AsmSt) (c : Char) : AsmSt :=
  if !isChoU c && !isJungU c && !isJongU c then
    let st1 := flushAll st
    { flushThrough st1 c with stage := 0 }
  else asmStepJamo st c

/-- Run the vendored `assemble` loop from a state, ending with the source's
final `_makeHangul(i - 1)` flush. -/
def runFrom (st : AsmSt) : List Char → List Char
  | [] => st.res ++ (flushSeg st.pending).toList
  | c :: cs => runFrom (asmStep st c) cs

/-- Translation of `assemble` from the vendored `hangul-js` over a unit
array. -/
def assembleUnits (arr : List Char) : List Char :=
  runFrom { res := [], stage := 0, pending := [], prev := Char.ofNat 0, jj := false } arr

/-- Translation of `assemble` from the vendored `hangul-js` applied to a
string, as the round-trip contract uses it: a string argument is first
disassembled into units. -/
def composeText (s : String) : String :=
  String.mk (assembleUnits (disassembleUnits s))

/-! ## Index data model (from `src/hangulIndex.ts`) -/

/-- Translation of the `IndexEntry` interface. -/
structure IndexEntry where
  display : String
  jamo : String
  path : String
  content : String
  contentJamo : String
  score : ℚ
  size : ℚ
  mtime : ℚ
  contentLoaded : Bool
deriving DecidableEq

/-- Translation of the `TFile` fields the index reads. -/
structure VFile where
  path : String
  basename : String
  extension : String
  size : ℚ
  mtime : ℚ
deriving DecidableEq

/-- The four search strategies of `performKoreanSearch`. -/
inductive Strategy where
  | direct : Strategy
  | decomposed : Strategy
  | initialCons : Strategy
  | partialSyl : Strategy
deriving DecidableEq

/-- Per-strategy score boost of `calculateRelevanceScore`. -/
def strategyBonus : Strategy → ℚ
  | Strategy.direct => 5
  | Strategy.initialCons => 3
  | Strategy.partialSyl => 2
  | Strategy.decomposed => 1

/-- Contiguous-substring test on character lists. -/
def listInfix (sub : List Char) : List Char → Bool
  | [] => sub.isEmpty
  | c :: cs => sub.isPrefixOf (c :: cs) || listInfix sub cs

/-- JavaScript `String.prototype.includes`: substring containment. -/
def strIncludes (s sub : String) : Bool :=
  listInfix sub.data s.data

/-- JavaScript `String.prototype.toLowerCase` on the relevant alphabet
(case only exists for the Latin letters; the script has no case). -/
def strLower (s : String) : String :=
  String.mk (s.data.map Char.toLower)

/-- Translation of `calculateRelevanceScore` from `src/hangulIndex.ts`;
`now` stands for `Date.now()`. -/
def calculateRelevanceScore (entry : IndexEntry) (query : String) (fuseScore : ℚ)
    (strategy : Strategy) (now : ℚ) : ℚ :=
  let score := 1 - fuseScore
  let score := score + strategyBonus strategy
  let queryLower := strLower query
  let displayLower := strLower entry.display
  let score :=
    if displayLower = queryLower then score + 10
    else if strIncludes displayLower queryLower then score + 5
    else score
  let score := if strIncludes (strLower entry.content) queryLower then score + 2 else score
  let daysSinceModified := (now - entry.mtime) / (1000 * 60 * 60 * 24)
  let score := if daysSinceModified < 7 then score + 1 else score
  let score := if entry.size < 1000 then score + 1 / 2 else score
  score

/-- A character of the `[ㄱ-ㅎ]` class of the source's regular expressions:
the compatibility consonant range U+3131..U+314E. -/
def isCompatConsonant (c : Char) : Bool :=
  0x3131 ≤ c.toNat && c.toNat ≤ 0x314E

/-- Translation of `isInitialConsonantQuery`: the regex `/^[ㄱ-ㅎ]+$/`. -/
def isInitialConsonantQuery (q : String) : Bool :=
  !q.data.isEmpty && q.data.all isCompatConsonant

/-- Translation of `isPartialSyllableQuery`: `/[가-힣]/.test(query)` and
`/[ㄱ-ㅎ]/.test(query)`. -/
def isPartialSyllableQuery (q : String) : Bool :=
  q.data.any isBlock && q.data.any isCompatConsonant

/-- Translation of `extractInitialConsonants`: for each character, the first
unit of its disassembly if it is a composed block, the character itself
otherwise. -/
def extractInitialConsonants (text : String) : String :=
  String.mk (text.data.map (fun c => if isBlock c then (disassembleChar c).headD c else c))

/-- Translation of `matchesPartialSyllable`: the decomposed text contains
the decomposed pattern. -/
def matchesPartialSyllable (text pattern : String) : Bool :=
  strIncludes (decomposeKoreanText text) (decomposeKoreanText pattern)

/-! ## Result merging (from `performKoreanSearch` and friends)

The `results` map of `performKoreanSearch` is a JavaScript `Map` keyed by
document path; it is modelled as its insertion-ordered value list (each
stored entry carries its own key in the `path` field). -/

/-- One `results.set` guarded by
`!results.has(item.path) || results.get(item.path)!.score < score`. -/
def mergeResult (res : List IndexEntry) (item : IndexEntry) (score : ℚ) : List IndexEntry :=
  match res.find? (fun e => e.path == item.path) with
  | none => res ++ [{ item with score := score }]
  | some old =>
    if old.score < score then
      res.map (fun e => if e.path == item.path then { item with score := score } else e)
    else res

/-- The Fuse search boundary: results (entry, fuse score) for a search term.
Fuse is the general-purpose fuzzy matcher bundled in `src/main.js`; its
internal scoring is outside the claims, so the orchestration is verified for
an arbitrary such function. -/
abbrev FuseFn := String → List (IndexEntry × ℚ)

/-- Translation of `searchByStrategy`. -/
def searchByStrategy (f : FuseFn) (now : ℚ) (term : String) (res : List IndexEntry)
    (strategy : Strategy) : List IndexEntry :=
  (f term).foldl
    (fun r p => mergeResult r p.1 (calculateRelevanceScore p.1 term p.2 strategy now)) res

/-- Translation of `searchByInitialConsonants`. -/
def searchByInitialConsonants (now : ℚ) (q : String) (entries : List IndexEntry)
    (res : List IndexEntry) : List IndexEntry :=
  entries.foldl
    (fun r e =>
      if strIncludes (extractInitialConsonants e.display) q then
        mergeResult r e (calculateRelevanceScore e q (3 / 10) Strategy.initialCons now)
      else r) res

/-- Translation of `searchByPartialSyllables`. -/
def searchByPartialSyllables (now : ℚ) (q : String) (entries : List IndexEntry)
    (res : List IndexEntry) : List IndexEntry :=
  entries.foldl
    (fun r e =>
      if matchesPartialSyllable e.display q then
        mergeResult r e (calculateRelevanceScore e q (1 / 5) Strategy.partialSyl now)
      else r) res

/-- Translation of `performKoreanSearch`: run the four strategies (the last
three conditionally) into one path-keyed result map and return its values. -/
def performKoreanSearch (f : FuseFn) (now : ℚ) (entries : List IndexEntry)
    (query : String) : List IndexEntry :=
  let r1 := searchByStrategy f now query [] Strategy.direct
  let decomposed := decomposeKoreanText query
  let r2 :=
    if decomposed ≠ query then searchByStrategy f now decomposed r1 Strategy.decomposed else r1
  let r3 :=
    if isInitialConsonantQuery query then searchByInitialConsonants now query entries r2 else r2
  let r4 :=
    if isPartialSyllableQuery query then searchByPartialSyllables now query entries r3 else r3
  r4

/-- JavaScript whitespace characters relevant to `String.prototype.trim`. -/
def jsWhitespace (c : Char) : Bool :=
  c == ' ' || c == '\t' || c == '\n' || c == '\r' || c == '\x0b' || c == '\x0c'

/-- JavaScript `String.prototype.trim`. -/
def jsTrim (s : String) : String :=
  String.mk (((s.data.dropWhile jsWhitespace).reverse.dropWhile jsWhitespace).reverse)

/-- Insertion sort by descending score: the `.sort((a, b) => b.score - a.score)`
of `search`. -/
def insertDesc (e : IndexEntry) : List IndexEntry → List IndexEntry
  | [] => [e]
  | x :: xs => if x.score < e.score then e :: x :: xs else x :: insertDesc e xs

def sortByScoreDesc (l : List IndexEntry) : List IndexEntry :=
  l.foldr insertDesc []

/-- Translation of `search`: empty-after-trim guard, Korean search, sort by
descending score, truncate. -/
def search (f : FuseFn) (now : ℚ) (entries : List IndexEntry) (query : String)
    (limit : Nat) : List IndexEntry :=
  if jsTrim query = "" then []
  else
    let searchResults := performKoreanSearch f now entries query
    let topResults := (sortByScoreDesc searchResults).take (min (limit * 2) 100)
    topResults.take limit

/-! ## Threshold plumbing (from `updateThreshold` / `rebuildFuse`) -/

/-- The plugin settings object, as read by `rebuildFuse`. -/
structure PluginSettings where
  fuzzyThreshold : ℚ
deriving DecidableEq

/-- JavaScript `x || d` on numbers: `d` when `x` is falsy (0). -/
def jsNumOr (x : Option ℚ) (d : ℚ) : ℚ :=
  match x with
  | none => d
  | some v => if v = 0 then d else v

/-- The threshold `rebuildFuse` passes to the Fuse constructor:
`this.plugin.settings?.fuzzyThreshold || this.defaultThreshold` with
`defaultThreshold = 0.6`. -/
def rebuildFuseThreshold (settings : Option PluginSettings) : ℚ :=
  jsNumOr (settings.map (·.fuzzyThreshold)) (3 / 5)

/-- Translation of `updateThreshold`: store the new threshold in the plugin
settings when they exist. -/
def updateThreshold (t : ℚ) (settings : Option PluginSettings) : Option PluginSettings :=
  settings.map (fun _ => { fuzzyThreshold := t })

/-! ## Index lifecycle state (from `build`/`addFileMetadata`/`removeFile`/
`updateFile`/`updateOnRename`/`clear`) -/

/-- The mutable state of `HangulIndex`: the `entries` array and the
path-keyed `indexMap` (a JavaScript `Map`, modelled as its insertion-ordered
association list). -/
structure IndexState where
  entries : List IndexEntry
  indexMap : List (String × IndexEntry)
deriving DecidableEq

def initState : IndexState := { entries := [], indexMap := [] }

/-- JavaScript `Map.prototype.get`. -/
def mapGet (m : List (String × IndexEntry)) (k : String) : Option IndexEntry :=
  (m.find? (fun p => p.1 == k)).map (·.2)

/-- JavaScript `Map.prototype.set`: replace in place, or append. -/
def mapSet (m : List (String × IndexEntry)) (k : String) (v : IndexEntry) :
    List (String × IndexEntry) :=
  if (m.find? (fun p => p.1 == k)).isSome then
    m.map (fun p => if p.1 == k then (k, v) else p)
  else m ++ [(k, v)]

/-- JavaScript `Map.prototype.delete`. -/
def mapDelete (m : List (String × IndexEntry)) (k : String) : List (String × IndexEntry) :=
  m.filter (fun p => !(p.1 == k))

/-- Translation of `createMetadataEntry`. -/
def createMetadataEntry (file : VFile) : IndexEntry :=
  { display := file.basename
    jamo := decomposeKoreanText file.basename
    path := file.path
    content := ""
    contentJamo := ""
    score := 0
    size := file.size
    mtime := file.mtime
    contentLoaded := false }

/-- Translation of `removeFile` (which only reads `file.path`): look the
entry up in `indexMap`, splice it out of `entries`, delete the key. -/
def removeFileByPath (path : String) (st : IndexState) : IndexState :=
  match mapGet st.indexMap path with
  | none => st
  | some existingEntry =>
    if st.entries.contains existingEntry then
      { entries := st.entries.erase existingEntry
        indexMap := mapDelete st.indexMap path }
    else st

def removeFile (file : VFile) (st : IndexState) : IndexState :=
  removeFileByPath file.path st

/-- Translation of `addFileMetadata`: skip non-markdown files, remove any
existing entry for the path, then push and set. -/
def addFileMetadata (file : VFile) (st : IndexState) : IndexState :=
  if file.extension ≠ "md" then st
  else
    let entry := createMetadataEntry file
    let st1 := if (mapGet st.indexMap file.path).isSome then removeFile file st else st
    { entries := st1.entries ++ [entry]
      indexMap := mapSet st1.indexMap file.path entry }

/-- Translation of `addFile` (the Fuse rebuild carries no index state). -/
def addFile (file : VFile) (st : IndexState) : IndexState :=
  addFileMetadata file st

/-- Translation of `updateFile`. -/
def updateFile (file : VFile) (st : IndexState) : IndexState :=
  if file.extension ≠ "md" then st
  else addFile file (removeFile file st)

/-- Translation of `updateOnRename`: when a record exists under the old
path, remove it and add the renamed file. -/
def updateOnRename (file : VFile) (oldPath : String) (st : IndexState) : IndexState :=
  match mapGet st.indexMap oldPath with
  | none => st
  | some _ => addFile file (removeFileByPath oldPath st)

/-- Translation of `clear`. -/
def clearIndex (_st : IndexState) : IndexState :=
  { entries := [], indexMap := [] }

/-- Translation of `build`: reset, then index each file's metadata. -/
def buildIndex (files : List VFile) (st : IndexState) : IndexState :=
  files.foldl (fun s f => addFileMetadata f s) (clearIndex st)

/-- Translation of `getIndexedCount`. -/
def getIndexedCount (st : IndexState) : Nat :=
  st.entries.length

/-! ## Claim C2: the threshold plumbing -/

/-- C2: setting the match threshold to 0 does not take effect: the code's
`settings.fuzzyThreshold || defaultThreshold` treats the stored 0 as falsy,
so `rebuildFuse` constructs Fuse with the lenient default threshold 0.6
instead of the exact-match threshold 0 that the claim relies on. -/
theorem updateThreshold_zero_ineffective :
    rebuildFuseThreshold (updateThreshold 0 (some { fuzzyThreshold := 2 / 5 })) = 3 / 5 ∧
      rebuildFuseThreshold (updateThreshold 0 (some { fuzzyThreshold := 2 / 5 })) ≠ 0 := by
  refine ⟨rfl, ?_⟩
  intro h
  rw [show rebuildFuseThreshold (updateThreshold 0 (some { fuzzyThreshold := 2 / 5 })) =
    3 / 5 from rfl] at h
  norm_num at h

/-! ## Claim C3: empty and whitespace-only queries -/

theorem jsTrim_of_all_whitespace (q : String) (h : q.data.all jsWhitespace = true) :
    jsTrim q = "" := by
  unfold jsTrim
  have h1 : q.data.dropWhile jsWhitespace = [] := by
    rw [List.dropWhile_eq_nil_iff]
    intro x hx
    exact List.all_eq_true.mp h x hx
  rw [h1]
  rfl

/-- C3: a query that is empty or consists only of whitespace returns the
empty result list, for every index state and every behaviour of the Fuse
boundary (the search function is total, so it cannot throw). -/
theorem search_whitespace_query_empty (f : FuseFn) (now : ℚ) (entries : List IndexEntry)
    (query : String) (limit : Nat) (h : query.data.all jsWhitespace = true) :
    search f now entries query limit = [] := by
  unfold search
  rw [jsTrim_of_all_whitespace query h]
  simp

/-- Witness for C3 at the whitespace-only query `" "` (and a nonempty index). -/
theorem search_whitespace_query_empty_witness :
    search (fun _ => [(⟨"a", "a", "p", "", "", 0, 1, 0, false⟩, 0)]) 0
        [⟨"a", "a", "p", "", "", 0, 1, 0, false⟩] " " 50 = [] :=
  search_whitespace_query_empty _ 0 _ " " 50 (by decide)

/-! ## Claim C6: the score bonuses -/

/-- The scoring formula that claim C6 asserts: every bonus whose condition
holds is added, cumulatively across all five conditions. -/
def cumulativeRelevanceScore (entry : IndexEntry) (query : String) (fuseScore : ℚ)
    (strategy : Strategy) (now : ℚ) : ℚ :=
  1 - fuseScore + strategyBonus strategy
    + (if strLower entry.display = strLower query then 10 else 0)
    + (if strIncludes (strLower entry.display) (strLower query) then 5 else 0)
    + (if strIncludes (strLower entry.content) (strLower query) then 2 else 0)
    + (if (now - entry.mtime) / (1000 * 60 * 60 * 24) < 7 then 1 else 0)
    + (if entry.size < 1000 then 1 / 2 else 0)

/-- The scoring formula the code actually implements: exact display-name
equality and display-name containment are mutually exclusive branches
(`if`/`else if`), the remaining three bonuses are cumulative. -/
def amendedRelevanceScore (entry : IndexEntry) (query : String) (fuseScore : ℚ)
    (strategy : Strategy) (now : ℚ) : ℚ :=
  1 - fuseScore + strategyBonus strategy
    + (if strLower entry.display = strLower query then 10
       else if strIncludes (strLower entry.display) (strLower query) then 5 else 0)
    + (if strIncludes (strLower entry.content) (strLower query) then 2 else 0)
    + (if (now - entry.mtime) / (1000 * 60 * 60 * 24) < 7 then 1 else 0)
    + (if entry.size < 1000 then 1 / 2 else 0)

/-- C6 counterexample: for a document whose display name equals the query,
the display-name containment condition also holds, yet the code adds only
the exact-match bonus (score 16 = 1 + 5 + 10), not the cumulative 21 the
claim demands; the bonuses are therefore not cumulative across conditions. -/
theorem calculateRelevanceScore_not_cumulative :
    strLower (⟨"a", "a", "p", "", "", 0, 2000, 0, false⟩ : IndexEntry).display = strLower "a" ∧
      strIncludes (strLower (⟨"a", "a", "p", "", "", 0, 2000, 0, false⟩ : IndexEntry).display)
        (strLower "a") = true ∧
      calculateRelevanceScore ⟨"a", "a", "p", "", "", 0, 2000, 0, false⟩ "a" 0
        Strategy.direct 700000000000 = 16 ∧
      cumulativeRelevanceScore ⟨"a", "a", "p", "", "", 0, 2000, 0, false⟩ "a" 0
        Strategy.direct 700000000000 = 21 ∧
      calculateRelevanceScore ⟨"a", "a", "p", "", "", 0, 2000, 0, false⟩ "a" 0
        Strategy.direct 700000000000 ≠
        cumulativeRelevanceScore ⟨"a", "a", "p", "", "", 0, 2000, 0, false⟩ "a" 0
          Strategy.direct 700000000000 := by
  have hA : strIncludes (strLower "") (strLower "a") = false := by decide
  have hB : strIncludes (strLower "a") (strLower "a") = true := by decide
  have h16 : calculateRelevanceScore ⟨"a", "a", "p", "", "", 0, 2000, 0, false⟩ "a" 0
      Strategy.direct 700000000000 = 16 := by
    simp only [calculateRelevanceScore, strategyBonus, hA]
    norm_num
  have h21 : cumulativeRelevanceScore ⟨"a", "a", "p", "", "", 0, 2000, 0, false⟩ "a" 0
      Strategy.direct 700000000000 = 21 := by
    simp only [cumulativeRelevanceScore, strategyBonus, hA, hB]
    norm_num
  refine ⟨rfl, by decide, h16, h21, ?_⟩
  rw [h16, h21]
  norm_num

theorem ite_add_shift (p : Prop) [Decidable p] (x k : ℚ) :
    (if p then x + k else x) = x + (if p then k else 0) := by
  split_ifs <;> simp

theorem ite_name_shift (p q : Prop) [Decidable p] [Decidable q] (x : ℚ) :
    (if p then x + 10 else if q then x + 5 else x) =
      x + (if p then 10 else if q then 5 else 0) := by
  split_ifs <;> simp

/-- C6 amended: the final score is the base score plus the strategy bonus
plus an exclusive display-name bonus (+10 for case-insensitive equality,
otherwise +5 for containment, otherwise 0), plus a +2 content-containment
bonus, a +1 bonus when modified less than 7 days ago, and a +1/2 bonus when
the file is smaller than 1000 bytes; the last three are cumulative. -/
theorem calculateRelevanceScore_amended (entry : IndexEntry) (query : String)
    (fuseScore : ℚ) (strategy : Strategy) (now : ℚ) :
    calculateRelevanceScore entry query fuseScore strategy now =
      amendedRelevanceScore entry query fuseScore strategy now := by
  simp only [calculateRelevanceScore, amendedRelevanceScore]
  rw [ite_name_shift, ite_add_shift, ite_add_shift, ite_add_shift]

/-! ## Claim C8: decomposition is total, deterministic, pass-through -/

theorem disassembleChar_foreign (c : Char) (hb : isBlock c = false)
    (hcons : isConsU c = false) (hj : isJungU c = false) : disassembleChar c = [c] := by
  unfold disassembleChar
  rw [hb, hcons, hj]
  simp

theorem flatMap_stable (l : List Char) (h : ∀ u ∈ l, disassembleChar u = [u]) :
    l.flatMap disassembleChar = l := by
  induction l with
  | nil => rfl
  | cons c t2 ih =>
    rw [List.flatMap_cons, h c (by simp), ih (fun x hx => h x (by simp [hx])),
      List.singleton_append]

/-- C8 counterexample: characters that are not composed syllable blocks do
not all pass through unchanged: the vendored `disassemble` splits the bare
compound consonant `'ㄳ'` into its two parts, so `decomposeKoreanText`
rewrites the block-free text `"ㄳ"`. -/
theorem decomposeKoreanText_splits_compound_jamo :
    isBlock 'ㄳ' = false ∧ decomposeKoreanText "ㄳ" = "ㄱㅅ" ∧
      decomposeKoreanText "ㄳ" ≠ "ㄳ" := by
  decide

/-- C8 amended: decomposition is total and deterministic (it always equals
the joined disassembly, so the error branch is never taken); any text whose
characters are neither composed syllable blocks nor atomic units of the
script (compatibility consonants or vowels) is returned unchanged; and if
the underlying disassembly boundary did raise an error, the original text
would be returned unchanged. -/
theorem decomposeKoreanText_amended :
    (∀ s : String, decomposeKoreanText s = String.mk (disassembleUnits s)) ∧
      (∀ s : String,
        (∀ c ∈ s.data, isBlock c = false ∧ isConsU c = false ∧ isJungU c = false) →
        decomposeKoreanText s = s) ∧
      (∀ (e : String) (s : String), decomposeWith (fun _ => Except.error e) s = s) := by
  refine ⟨fun s => rfl, fun s h => ?_, fun e s => rfl⟩
  show String.mk (s.data.flatMap disassembleChar) = s
  rw [flatMap_stable s.data
    (fun u hu => disassembleChar_foreign u (h u hu).1 (h u hu).2.1 (h u hu).2.2)]

/-- Witness for C8's amended pass-through on a concrete text without blocks
or atomic units. -/
theorem decomposeKoreanText_amended_witness :
    decomposeKoreanText "abc123!" = "abc123!" :=
  decomposeKoreanText_amended.2.1 "abc123!" (by decide)

/-! ## Claims C4 and C5: the strategy guards and match predicates -/

/-- The 11 compound trailing consonants as standalone characters: the part
of the `[ㄱ-ㅎ]` regex class that is not a leading consonant. -/
def TRAILCOMP : List Char :=
  ['ㄳ', 'ㄵ', 'ㄶ', 'ㄺ', 'ㄻ', 'ㄼ', 'ㄽ', 'ㄾ', 'ㄿ', 'ㅀ', 'ㅄ']

theorem char_toNat_injective : Function.Injective Char.toNat := by
  intro a b hab
  apply Char.ext
  exact UInt32.ext hab

/-- The `[ㄱ-ㅎ]` class is exactly the 19 leading consonants together with
the 11 standalone compound trailing consonants. -/
theorem isCompatConsonant_iff (c : Char) :
    isCompatConsonant c = true ↔ (c ∈ CHO ∨ c ∈ TRAILCOMP) := by
  constructor
  · intro h
    have hb : 12593 ≤ c.toNat ∧ c.toNat ≤ 12622 := by
      unfold isCompatConsonant at h
      simpa using h
    have e1 : CHO.map Char.toNat =
        [12593, 12594, 12596, 12599, 12600, 12601, 12609, 12610, 12611, 12613, 12614,
         12615, 12616, 12617, 12618, 12619, 12620, 12621, 12622] := rfl
    have e2 : TRAILCOMP.map Char.toNat =
        [12595, 12597, 12598, 12602, 12603, 12604, 12605, 12606, 12607, 12608, 12612] := rfl
    have hm : c.toNat ∈ CHO.map Char.toNat ∨ c.toNat ∈ TRAILCOMP.map Char.toNat := by
      rw [e1, e2]
      simp only [List.mem_cons, List.not_mem_nil, or_false]
      omega
    rcases hm with hm | hm
    · exact Or.inl ((List.mem_map_of_injective char_toNat_injective).mp hm)
    · exact Or.inr ((List.mem_map_of_injective char_toNat_injective).mp hm)
  · intro h
    rcases h with h | h
    · exact (show ∀ d ∈ CHO, isCompatConsonant d = true by decide) c h
    · exact (show ∀ d ∈ TRAILCOMP, isCompatConsonant d = true by decide) c h

/-- The executable substring test agrees with contiguous-substring
containment. -/
theorem listInfix_iff (sub l : List Char) : listInfix sub l = true ↔ sub <:+: l := by
  induction l with
  | nil =>
    simp [listInfix, List.isEmpty_iff]
  | cons c cs ih =>
    rw [show listInfix sub (c :: cs) = (sub.isPrefixOf (c :: cs) || listInfix sub cs) from rfl]
    rw [Bool.or_eq_true, ih, List.infix_cons_iff]
    constructor
    · rintro (h | h)
      · exact Or.inl (List.isPrefixOf_iff_prefix.mp h)
      · exact Or.inr h
    · rintro (h | h)
      · exact Or.inl (List.isPrefixOf_iff_prefix.mpr h)
      · exact Or.inr h

/-- The leading consonant of a composed block (claim-side notion): the
character at the block's leading index, other characters unchanged. -/
def leadingChar (c : Char) : Char :=
  if isBlock c then CHO.getD ((c.toNat - 0xAC00) / 588) c else c

/-- Claim-side string: per-character leading consonants concatenated. -/
def leadingConcat (text : String) : String :=
  String.mk (text.data.map leadingChar)

theorem disassembleChar_block (c : Char) (hb : isBlock c = true) :
    disassembleChar c =
      CHO.getD ((c.toNat - 0xAC00) / 588) c ::
        (jungUnitsOf (JUNG.getD (((c.toNat - 0xAC00) % 588) / 28) c) ++
          jongUnitsOf ((c.toNat - 0xAC00) % 28)) := by
  unfold disassembleChar
  rw [if_pos hb]

theorem headD_disassembleChar (c : Char) (hb : isBlock c = true) :
    (disassembleChar c).headD c = CHO.getD ((c.toNat - 0xAC00) / 588) c := by
  rw [disassembleChar_block c hb, List.headD_cons]

theorem extractInitialConsonants_eq_leadingConcat (text : String) :
    extractInitialConsonants text = leadingConcat text := by
  unfold extractInitialConsonants leadingConcat leadingChar
  congr 1
  apply List.map_congr_left
  intro c _
  by_cases hb : isBlock c
  · rw [if_pos hb, if_pos hb, headD_disassembleChar c hb]
  · rw [if_neg hb, if_neg hb]

theorem leadingChar_mem_CHO (c : Char) (h : isBlock c = true) : leadingChar c ∈ CHO := by
  unfold leadingChar
  rw [if_pos h]
  have hlt : (c.toNat - 0xAC00) / 588 < CHO.length := by
    unfold isBlock at h
    simp only [Bool.and_eq_true, decide_eq_true_eq] at h
    have : c.toNat - 0xAC00 ≤ 11171 := by omega
    show (c.toNat - 0xAC00) / 588 < 19
    omega
  rw [List.getD_eq_getElem _ _ hlt]
  exact List.getElem_mem hlt

/-- Membership (by path) in the result map after one guarded `results.set`. -/
theorem mem_path_mergeResult (res : List IndexEntry) (item : IndexEntry) (s : ℚ)
    (p : String) :
    (∃ e ∈ mergeResult res item s, e.path = p) ↔
      (∃ e ∈ res, e.path = p) ∨ item.path = p := by
  cases hf : res.find? (fun e => e.path == item.path) with
  | none =>
    have hm : mergeResult res item s = res ++ [{ item with score := s }] := by
      unfold mergeResult; rw [hf]
    rw [hm]
    simp only [List.mem_append, List.mem_singleton]
    constructor
    · rintro ⟨e, he | he, hp⟩
      · exact Or.inl ⟨e, he, hp⟩
      · subst he; exact Or.inr hp
    · rintro (⟨e, he, hp⟩ | hp)
      · exact ⟨e, Or.inl he, hp⟩
      · exact ⟨_, Or.inr rfl, hp⟩
  | some old =>
    have holdmem : old ∈ res := List.mem_of_find?_eq_some hf
    have holdpath : old.path = item.path := by
      have := List.find?_some hf
      simpa using this
    by_cases hlt : old.score < s
    · have hm : mergeResult res item s =
          res.map (fun e => if e.path == item.path then { item with score := s } else e) := by
        unfold mergeResult; rw [hf]; exact if_pos hlt
      rw [hm]
      constructor
      · rintro ⟨e, he, hp⟩
        rw [List.mem_map] at he
        obtain ⟨e0, he0, rfl⟩ := he
        by_cases hc : e0.path == item.path
        · rw [if_pos hc] at hp
          exact Or.inr hp
        · rw [if_neg hc] at hp
          exact Or.inl ⟨e0, he0, hp⟩
      · rintro (⟨e, he, hp⟩ | hp)
        · by_cases hc : e.path == item.path
          · refine ⟨{ item with score := s }, ?_, ?_⟩
            · rw [List.mem_map]
              exact ⟨e, he, by rw [if_pos hc]⟩
            · have hep : e.path = item.path := by simpa using hc
              show item.path = p
              rw [← hep]; exact hp
          · refine ⟨e, ?_, hp⟩
            rw [List.mem_map]
            exact ⟨e, he, by rw [if_neg hc]⟩
        · refine ⟨{ item with score := s }, ?_, hp⟩
          rw [List.mem_map]
          refine ⟨old, holdmem, ?_⟩
          rw [if_pos (by simpa using holdpath)]
    · have hm : mergeResult res item s = res := by
        unfold mergeResult; rw [hf]; exact if_neg hlt
      rw [hm]
      constructor
      · rintro ⟨e, he, hp⟩
        exact Or.inl ⟨e, he, hp⟩
      · rintro (⟨e, he, hp⟩ | hp)
        · exact ⟨e, he, hp⟩
        · exact ⟨old, holdmem, by rw [holdpath]; exact hp⟩

/-- The shared shape of `searchByInitialConsonants` and
`searchByPartialSyllables`: fold the entries, merging those satisfying a
per-entry condition. -/
def condFold (cond : IndexEntry → Bool) (sc : IndexEntry → ℚ)
    (entries res : List IndexEntry) : List IndexEntry :=
  entries.foldl (fun r e => if cond e then mergeResult r e (sc e) else r) res

theorem mem_path_condFold (cond : IndexEntry → Bool) (sc : IndexEntry → ℚ)
    (entries res : List IndexEntry) (p : String) :
    (∃ e ∈ condFold cond sc entries res, e.path = p) ↔
      (∃ e ∈ res, e.path = p) ∨ ∃ e ∈ entries, e.path = p ∧ cond e = true := by
  induction entries generalizing res with
  | nil => simp [condFold]
  | cons a es ih =>
    have hstep : condFold cond sc (a :: es) res =
        condFold cond sc es (if cond a then mergeResult res a (sc a) else res) := rfl
    rw [hstep, ih]
    by_cases ha : cond a = true
    · rw [if_pos ha, mem_path_mergeResult]
      simp only [List.mem_cons]
      constructor
      · rintro ((h | h) | h)
        · exact Or.inl h
        · exact Or.inr ⟨a, Or.inl rfl, h, ha⟩
        · obtain ⟨e, he, hp, hc⟩ := h
          exact Or.inr ⟨e, Or.inr he, hp, hc⟩
      · rintro (h | ⟨e, (rfl | he), hp, hc⟩)
        · exact Or.inl (Or.inl h)
        · exact Or.inl (Or.inr hp)
        · exact Or.inr ⟨e, he, hp, hc⟩
    · rw [if_neg ha]
      simp only [List.mem_cons]
      constructor
      · rintro (h | ⟨e, he, hp, hc⟩)
        · exact Or.inl h
        · exact Or.inr ⟨e, Or.inr he, hp, hc⟩
      · rintro (h | ⟨e, (rfl | he), hp, hc⟩)
        · exact Or.inl h
        · exact absurd hc ha
        · exact Or.inr ⟨e, he, hp, hc⟩

/-- The executable inclusion test as contiguous-substring containment. -/
theorem strIncludes_iff (s sub : String) : strIncludes s sub = true ↔ sub.data <:+: s.data := by
  unfold strIncludes
  exact listInfix_iff sub.data s.data

/-- C4 counterexample: the initial-consonant strategy runs on the query
`"ㄳ"` (its guard accepts the whole `[ㄱ-ㅎ]` range), yet `"ㄳ"` does not
consist solely of leading-consonant atomic units: `'ㄳ'` is a compound
trailing consonant, not one of the 19 leading consonants. -/
theorem isInitialConsonantQuery_runs_on_nonleading :
    isInitialConsonantQuery "ㄳ" = true ∧ ¬(∀ c ∈ "ㄳ".data, c ∈ CHO) := by
  decide

/-- C4 amended: the initial-consonant strategy runs exactly when the query
is nonempty and every character is a compatibility consonant (one of the 19
leading consonants or one of the 11 standalone compound trailing
consonants); the extracted string is exactly the per-character
leading-consonant concatenation of the claim (with the character at a
block's leading index being a leading consonant); and when it runs, a
document joins the result map precisely when it was already present or the
query is a contiguous substring of that concatenation for its display
name. -/
theorem initialConsonant_strategy_amended :
    (∀ q : String, isInitialConsonantQuery q = true ↔
        (q.data ≠ [] ∧ ∀ c ∈ q.data, c ∈ CHO ∨ c ∈ TRAILCOMP)) ∧
      (∀ text : String, extractInitialConsonants text = leadingConcat text) ∧
      (∀ c : Char, isBlock c = true → leadingChar c ∈ CHO) ∧
      (∀ (now : ℚ) (q : String) (entries res : List IndexEntry) (p : String),
        (∃ e ∈ searchByInitialConsonants now q entries res, e.path = p) ↔
          ((∃ e ∈ res, e.path = p) ∨
            ∃ e ∈ entries, e.path = p ∧ q.data <:+: (leadingConcat e.display).data)) := by
  refine ⟨?_, extractInitialConsonants_eq_leadingConcat, leadingChar_mem_CHO, ?_⟩
  · intro q
    unfold isInitialConsonantQuery
    constructor
    · intro h
      rw [Bool.and_eq_true] at h
      obtain ⟨h1, h2⟩ := h
      refine ⟨?_, ?_⟩
      · intro hnil
        rw [hnil] at h1
        simp at h1
      · intro c hc
        exact (isCompatConsonant_iff c).mp (List.all_eq_true.mp h2 c hc)
    · rintro ⟨h1, h2⟩
      rw [Bool.and_eq_true]
      refine ⟨?_, List.all_eq_true.mpr fun c hc => (isCompatConsonant_iff c).mpr (h2 c hc)⟩
      cases hq : q.data with
      | nil => exact absurd hq h1
      | cons a l => rfl
  · intro now q entries res p
    have he : searchByInitialConsonants now q entries res =
        condFold (fun e => strIncludes (extractInitialConsonants e.display) q)
          (fun e => calculateRelevanceScore e q (3 / 10) Strategy.initialCons now)
          entries res := rfl
    rw [he, mem_path_condFold]
    apply or_congr Iff.rfl
    apply exists_congr
    intro e
    apply and_congr Iff.rfl
    apply and_congr Iff.rfl
    rw [strIncludes_iff, extractInitialConsonants_eq_leadingConcat]

/-- Witness for C4's amended theorem at the concrete block `'한'`. -/
theorem initialConsonant_strategy_amended_witness : leadingChar '한' ∈ CHO :=
  initialConsonant_strategy_amended.2.2.1 '한' (by decide)

/-- C5 counterexample: the partial-syllable strategy runs on the query
`"한ㄳ"` (one composed block plus one compatibility consonant), yet the
query contains no bare leading-consonant unit: `'한'` is a composed block
and `'ㄳ'` is a compound trailing consonant. -/
theorem isPartialSyllableQuery_runs_without_bare_leading :
    isPartialSyllableQuery "한ㄳ" = true ∧ ¬(∃ c ∈ "한ㄳ".data, c ∈ CHO) := by
  decide

/-- C5 amended: the partial-syllable strategy runs exactly when the query
contains at least one composed syllable block and at least one
compatibility consonant (a leading consonant or a standalone compound
trailing consonant); when it runs, a document joins the result map
precisely when it was already present or the fully decomposed query is a
contiguous substring of its fully decomposed display name. -/
theorem partialSyllable_strategy_amended :
    (∀ q : String, isPartialSyllableQuery q = true ↔
        ((∃ c ∈ q.data, isBlock c = true) ∧ ∃ c ∈ q.data, c ∈ CHO ∨ c ∈ TRAILCOMP)) ∧
      (∀ (now : ℚ) (q : String) (entries res : List IndexEntry) (p : String),
        (∃ e ∈ searchByPartialSyllables now q entries res, e.path = p) ↔
          ((∃ e ∈ res, e.path = p) ∨
            ∃ e ∈ entries, e.path = p ∧
              (decomposeKoreanText q).data <:+: (decomposeKoreanText e.display).data)) := by
  constructor
  · intro q
    unfold isPartialSyllableQuery
    rw [Bool.and_eq_true, List.any_eq_true, List.any_eq_true]
    apply and_congr Iff.rfl
    apply exists_congr
    intro c
    apply and_congr Iff.rfl
    exact isCompatConsonant_iff c
  · intro now q entries res p
    have he : searchByPartialSyllables now q entries res =
        condFold (fun e => matchesPartialSyllable e.display q)
          (fun e => calculateRelevanceScore e q (1 / 5) Strategy.partialSyl now)
          entries res := rfl
    have hm : ∀ t pa : String, matchesPartialSyllable t pa = true ↔
        (decomposeKoreanText pa).data <:+: (decomposeKoreanText t).data := by
      intro t pa
      unfold matchesPartialSyllable
      exact strIncludes_iff _ _
    rw [he, mem_path_condFold]
    apply or_congr Iff.rfl
    apply exists_congr
    intro e
    apply and_congr Iff.rfl
    apply and_congr Iff.rfl
    exact hm e.display q

/-! ## Claims C7 and C10: the index lifecycle -/

/-- The consistency invariant between the `entries` array and the
path-keyed `indexMap`: every array entry is stored in the map under its own
path, every map binding points back to an array entry under its own path,
and neither structure repeats a path. -/
def Inv (st : IndexState) : Prop :=
  (∀ e ∈ st.entries, mapGet st.indexMap e.path = some e) ∧
    (∀ pe ∈ st.indexMap, pe.2 ∈ st.entries ∧ pe.2.path = pe.1) ∧
    (st.entries.map (·.path)).Nodup ∧
    (st.indexMap.map (·.1)).Nodup

theorem mapGet_delete_self (m : List (String × IndexEntry)) (k : String) :
    mapGet (mapDelete m k) k = none := by
  induction m with
  | nil => rfl
  | cons p m ih =>
    by_cases hp : p.1 == k <;>
      simp [mapGet, mapDelete, List.find?_cons, List.filter_cons, hp]

theorem mapGet_delete_ne (m : List (String × IndexEntry)) (k q : String) (h : q ≠ k) :
    mapGet (mapDelete m k) q = mapGet m q := by
  induction m with
  | nil => rfl
  | cons p m ih =>
    by_cases hp : p.1 == k
    · have hk : p.1 = k := by simpa using hp
      have hpq : (p.1 == q) = false := by
        rw [hk]
        exact beq_eq_false_iff_ne.mpr fun hh => h hh.symm
      simp only [mapGet, mapDelete] at ih ⊢
      rw [List.filter_cons_of_neg (by simp [hp])]
      simp only [List.find?_cons, hpq]
      exact ih
    · simp only [mapGet, mapDelete] at ih ⊢
      rw [List.filter_cons_of_pos (by simp [hp])]
      by_cases hq : p.1 == q
      · simp only [List.find?_cons, hq]
      · simp only [List.find?_cons, hq]
        exact ih

theorem find?_mapReplace_ne (m : List (String × IndexEntry)) (k : String) (v : IndexEntry)
    (q : String) (h : q ≠ k) :
    (m.map (fun p => if p.1 == k then (k, v) else p)).find? (fun p => p.1 == q) =
      m.find? (fun p => p.1 == q) := by
  induction m with
  | nil => rfl
  | cons p m ih =>
    by_cases hp : p.1 == k
    · have hk : p.1 = k := by simpa using hp
      have hkq : (k == q) = false := beq_eq_false_iff_ne.mpr fun hh => h hh.symm
      have hpq : (p.1 == q) = false := by rw [hk]; exact hkq
      rw [List.map_cons, if_pos hp]
      simp only [List.find?_cons, hkq, hpq]
      exact ih
    · rw [List.map_cons, if_neg hp]
      by_cases hq : p.1 == q
      · simp only [List.find?_cons, hq]
      · simp only [List.find?_cons, hq]
        exact ih

theorem mapGet_set_self (m : List (String × IndexEntry)) (k : String) (v : IndexEntry) :
    mapGet (mapSet m k v) k = some v := by
  unfold mapSet
  by_cases hs : (m.find? (fun p => p.1 == k)).isSome
  · rw [if_pos hs]
    induction m with
    | nil => simp at hs
    | cons p m ih =>
      by_cases hp : p.1 == k
      · rw [List.map_cons, if_pos hp]
        unfold mapGet
        rw [List.find?_cons_of_pos _ (by simp)]
        rfl
      · have hp2 : (p.1 == k) = false := by simpa using hp
        rw [List.map_cons, if_neg hp]
        have hs2 : (m.find? (fun p => p.1 == k)).isSome := by
          simp only [List.find?_cons, hp2] at hs
          exact hs
        have hih := ih hs2
        unfold mapGet at hih ⊢
        simp only [List.find?_cons, hp2]
        exact hih
  · rw [if_neg hs]
    unfold mapGet
    rw [List.find?_append]
    have hnone : m.find? (fun p => p.1 == k) = none :=
      Option.not_isSome_iff_eq_none.mp hs
    rw [hnone]
    simp

theorem mapGet_set_ne (m : List (String × IndexEntry)) (k : String) (v : IndexEntry)
    (q : String) (h : q ≠ k) : mapGet (mapSet m k v) q = mapGet m q := by
  unfold mapSet
  by_cases hs : (m.find? (fun p => p.1 == k)).isSome
  · rw [if_pos hs]
    unfold mapGet
    rw [find?_mapReplace_ne m k v q h]
  · rw [if_neg hs]
    unfold mapGet
    have hkq : (k == q) = false := beq_eq_false_iff_ne.mpr fun hh => h hh.symm
    rw [List.find?_append]
    simp only [List.find?_cons, List.find?_nil, hkq, Option.or_none]

theorem mapGet_mem (m : List (String × IndexEntry)) (k : String) (v : IndexEntry)
    (h : mapGet m k = some v) : (k, v) ∈ m := by
  unfold mapGet at h
  cases hf : m.find? (fun p => p.1 == k) with
  | none => rw [hf] at h; simp at h
  | some pe =>
    rw [hf] at h
    simp only [Option.map] at h
    rw [Option.some_inj] at h
    have hmem := List.mem_of_find?_eq_some hf
    have hkey : pe.1 = k := by simpa using List.find?_some hf
    have hpe : pe = (k, v) := by
      cases pe
      simp only at hkey h
      rw [hkey, h]
    rw [← hpe]
    exact hmem

theorem mapGet_none_forall (m : List (String × IndexEntry)) (k : String)
    (h : mapGet m k = none) : ∀ pe ∈ m, pe.1 ≠ k := by
  unfold mapGet at h
  cases hf : m.find? (fun p => p.1 == k) with
  | some pe => rw [hf] at h; simp at h
  | none =>
    intro pe hpe hk
    have := List.find?_eq_none.mp hf pe hpe
    simp [hk] at this

theorem removeFileByPath_eq_none (p : String) (st : IndexState)
    (hg : mapGet st.indexMap p = none) : removeFileByPath p st = st := by
  unfold removeFileByPath
  rw [hg]

theorem removeFileByPath_eq_some (p : String) (st : IndexState) (e : IndexEntry)
    (hg : mapGet st.indexMap p = some e) :
    removeFileByPath p st =
      if st.entries.contains e then
        { entries := st.entries.erase e, indexMap := mapDelete st.indexMap p }
      else st := by
  unfold removeFileByPath
  rw [hg]

theorem removeFileByPath_inv (p : String) (st : IndexState) (hInv : Inv st) :
    Inv (removeFileByPath p st) := by
  obtain ⟨h1, h2, h3, h4⟩ := hInv
  cases hg : mapGet st.indexMap p with
  | none => rw [removeFileByPath_eq_none p st hg]; exact ⟨h1, h2, h3, h4⟩
  | some e =>
    rw [removeFileByPath_eq_some p st e hg]
    have he := h2 (p, e) (mapGet_mem _ _ _ hg)
    by_cases hc : st.entries.contains e
    · rw [if_pos hc]
      refine ⟨?_, ?_, ?_, ?_⟩
      · intro e2 he2
        have he2m : e2 ∈ st.entries := List.mem_of_mem_erase he2
        have hne : e2 ≠ e := by
          intro hh
          rw [hh] at he2
          exact (List.Nodup.of_map _ h3).not_mem_erase he2
        have hpath : e2.path ≠ p := by
          intro hh
          exact hne (List.inj_on_of_nodup_map h3 he2m he.1 (by rw [hh, he.2]))
        show mapGet (mapDelete st.indexMap p) e2.path = some e2
        rw [mapGet_delete_ne _ _ _ hpath]
        exact h1 e2 he2m
      · intro pe hpe
        have hpem : pe ∈ st.indexMap := List.mem_of_mem_filter hpe
        have hpk : pe.1 ≠ p := by
          have := List.of_mem_filter hpe
          simpa using this
        obtain ⟨hmem, hpath⟩ := h2 pe hpem
        refine ⟨?_, hpath⟩
        apply (List.mem_erase_of_ne ?_).mpr hmem
        intro hh
        apply hpk
        rw [← hpath, hh, he.2]
      · exact h3.sublist ((st.entries.erase_sublist e).map _)
      · exact h4.sublist ((List.filter_sublist _).map _)
    · rw [if_neg hc]
      exact ⟨h1, h2, h3, h4⟩

theorem removeFileByPath_absent (p : String) (st : IndexState) (hInv : Inv st) :
    mapGet (removeFileByPath p st).indexMap p = none ∧
      ∀ e ∈ (removeFileByPath p st).entries, e.path ≠ p := by
  obtain ⟨h1, h2, h3, h4⟩ := hInv
  cases hg : mapGet st.indexMap p with
  | none =>
    rw [removeFileByPath_eq_none p st hg]
    refine ⟨hg, ?_⟩
    intro e he hp
    have hsome := h1 e he
    rw [hp, hg] at hsome
    exact Option.noConfusion hsome
  | some e =>
    have he := h2 (p, e) (mapGet_mem _ _ _ hg)
    have hc : st.entries.contains e = true := List.elem_eq_true_of_mem he.1
    rw [removeFileByPath_eq_some p st e hg, if_pos hc]
    refine ⟨mapGet_delete_self _ _, ?_⟩
    intro e2 he2 hp2
    have he2m := List.mem_of_mem_erase he2
    have heq : e2 = e := List.inj_on_of_nodup_map h3 he2m he.1 (by rw [hp2, he.2])
    rw [heq] at he2
    exact (List.Nodup.of_map _ h3).not_mem_erase he2

theorem removeFileByPath_get_ne (p : String) (st : IndexState) (q : String) (h : q ≠ p) :
    mapGet (removeFileByPath p st).indexMap q = mapGet st.indexMap q := by
  cases hg : mapGet st.indexMap p with
  | none => rw [removeFileByPath_eq_none p st hg]
  | some e =>
    rw [removeFileByPath_eq_some p st e hg]
    by_cases hc : st.entries.contains e
    · rw [if_pos hc]
      exact mapGet_delete_ne _ _ _ h
    · rw [if_neg hc]

theorem removeFileByPath_entries_sublist (p : String) (st : IndexState) :
    (removeFileByPath p st).entries.Sublist st.entries := by
  cases hg : mapGet st.indexMap p with
  | none => rw [removeFileByPath_eq_none p st hg]
  | some e =>
    rw [removeFileByPath_eq_some p st e hg]
    by_cases hc : st.entries.contains e
    · rw [if_pos hc]
      exact st.entries.erase_sublist e
    · rw [if_neg hc]

theorem addFileMetadata_inv (f : VFile) (st : IndexState) (hInv : Inv st) :
    Inv (addFileMetadata f st) := by
  unfold addFileMetadata
  by_cases hext : f.extension ≠ "md"
  · rw [if_pos hext]
    exact hInv
  · rw [if_neg hext]
    have hInv1 : Inv (if (mapGet st.indexMap f.path).isSome then removeFile f st else st) := by
      by_cases hp : (mapGet st.indexMap f.path).isSome
      · rw [if_pos hp]
        exact removeFileByPath_inv f.path st hInv
      · rw [if_neg hp]
        exact hInv
    have habs : mapGet (if (mapGet st.indexMap f.path).isSome then removeFile f st
          else st).indexMap f.path = none ∧
        ∀ e ∈ (if (mapGet st.indexMap f.path).isSome then removeFile f st else st).entries,
          e.path ≠ f.path := by
      by_cases hp : (mapGet st.indexMap f.path).isSome
      · rw [if_pos hp]
        exact removeFileByPath_absent f.path st hInv
      · rw [if_neg hp]
        refine ⟨Option.not_isSome_iff_eq_none.mp hp, ?_⟩
        intro e he hpp
        apply hp
        have := hInv.1 e he
        rw [hpp] at this
        rw [this]
        rfl
    set st1 := if (mapGet st.indexMap f.path).isSome then removeFile f st else st with hst1
    obtain ⟨h1, h2, h3, h4⟩ := hInv1
    obtain ⟨hn, hne⟩ := habs
    have hfind : st1.indexMap.find? (fun p => p.1 == f.path) = none := by
      unfold mapGet at hn
      cases hf : st1.indexMap.find? (fun p => p.1 == f.path) with
      | none => rfl
      | some pe => rw [hf] at hn; simp at hn
    have hset : mapSet st1.indexMap f.path (createMetadataEntry f) =
        st1.indexMap ++ [(f.path, createMetadataEntry f)] := by
      unfold mapSet
      rw [hfind]
      rfl
    refine ⟨?_, ?_, ?_, ?_⟩
    · intro e he
      rcases List.mem_append.mp he with he | he
      · show mapGet (mapSet st1.indexMap f.path (createMetadataEntry f)) e.path = some e
        rw [mapGet_set_ne _ _ _ _ (hne e he)]
        exact h1 e he
      · rw [List.mem_singleton] at he
        rw [he]
        show mapGet (mapSet st1.indexMap f.path (createMetadataEntry f))
          (createMetadataEntry f).path = some (createMetadataEntry f)
        rw [show (createMetadataEntry f).path = f.path from rfl]
        exact mapGet_set_self _ _ _
    · intro pe hpe
      rw [show (IndexState.mk (st1.entries ++ [createMetadataEntry f])
        (mapSet st1.indexMap f.path (createMetadataEntry f))).indexMap =
        mapSet st1.indexMap f.path (createMetadataEntry f) from rfl, hset] at hpe
      rcases List.mem_append.mp hpe with hpe | hpe
      · obtain ⟨hmem, hpath⟩ := h2 pe hpe
        exact ⟨List.mem_append_left _ hmem, hpath⟩
      · rw [List.mem_singleton] at hpe
        rw [hpe]
        exact ⟨List.mem_append_right _ (List.mem_singleton.mpr rfl), rfl⟩
    · show ((st1.entries ++ [createMetadataEntry f]).map (fun e => e.path)).Nodup
      rw [List.map_append]
      refine List.Nodup.append h3 (List.nodup_singleton _) ?_
      intro a ha hb
      simp only [List.map_cons, List.map_nil, List.mem_singleton] at hb
      rw [List.mem_map] at ha
      obtain ⟨e, hemem, hep⟩ := ha
      exact hne e hemem (by rw [hep, hb]; rfl)
    · show ((mapSet st1.indexMap f.path (createMetadataEntry f)).map (fun pe => pe.1)).Nodup
      rw [hset, List.map_append]
      refine List.Nodup.append h4 (List.nodup_singleton _) ?_
      intro a ha hb
      simp only [List.map_cons, List.map_nil, List.mem_singleton] at hb
      rw [List.mem_map] at ha
      obtain ⟨pe, hpemem, hpek⟩ := ha
      have := List.find?_eq_none.mp hfind pe hpemem
      apply this
      rw [hpek, hb]
      simp

theorem addFileMetadata_get_self (f : VFile) (st : IndexState) (hext : f.extension = "md") :
    mapGet (addFileMetadata f st).indexMap f.path = some (createMetadataEntry f) := by
  unfold addFileMetadata
  rw [if_neg (by simp [hext])]
  exact mapGet_set_self _ _ _

theorem addFileMetadata_get_ne (f : VFile) (st : IndexState) (q : String) (hq : q ≠ f.path) :
    mapGet (addFileMetadata f st).indexMap q = mapGet st.indexMap q := by
  unfold addFileMetadata
  by_cases hext : f.extension ≠ "md"
  · rw [if_pos hext]
  · rw [if_neg hext]
    show mapGet (mapSet _ f.path (createMetadataEntry f)) q = _
    rw [mapGet_set_ne _ _ _ _ hq]
    by_cases hp : (mapGet st.indexMap f.path).isSome
    · rw [if_pos hp]
      exact removeFileByPath_get_ne f.path st q hq
    · rw [if_neg hp]

theorem addFileMetadata_entries (f : VFile) (st : IndexState) (hext : f.extension = "md") :
    ∃ pre, (addFileMetadata f st).entries = pre ++ [createMetadataEntry f] ∧
      pre.Sublist st.entries := by
  unfold addFileMetadata
  rw [if_neg (by simp [hext])]
  by_cases hp : (mapGet st.indexMap f.path).isSome
  · refine ⟨(removeFile f st).entries, ?_, removeFileByPath_entries_sublist f.path st⟩
    rw [if_pos hp]
  · refine ⟨st.entries, ?_, List.Sublist.refl _⟩
    rw [if_neg hp]

theorem inv_initState : Inv initState :=
  ⟨fun e he => absurd he (List.not_mem_nil e),
   fun pe hpe => absurd hpe (List.not_mem_nil pe),
   List.nodup_nil, List.nodup_nil⟩

/-- Concrete files used by the C7 scenario. -/
def fileA : VFile := { path := "a.md", basename := "a", extension := "md", size := 0, mtime := 0 }

def fileB : VFile := { path := "b.md", basename := "b", extension := "md", size := 0, mtime := 0 }

def fileTxt : VFile :=
  { path := "b.txt", basename := "b", extension := "txt", size := 0, mtime := 0 }

def stA : IndexState := addFileMetadata fileA initState

/-- C7 counterexample: with `"a.md"` indexed, a rename notification whose
file does not carry the `md` extension removes the old record but adds
nothing: the index ends up empty and the new path is absent, so no search
can return the renamed document. -/
theorem updateOnRename_nonmd_drops_document :
    (mapGet stA.indexMap "a.md").isSome = true ∧
      (updateOnRename fileTxt "a.md" stA).entries = [] ∧
      mapGet (updateOnRename fileTxt "a.md" stA).indexMap "b.txt" = none ∧
      mapGet (updateOnRename fileTxt "a.md" stA).indexMap "a.md" = none := by
  decide

/-- C7 amended: when a record exists under the old path and the renamed
file is a markdown file whose new path differs from the old one, handling
the rename removes the record under the old path (no stale entry remains
in either structure) and adds a fresh metadata record under the new
path. -/
theorem updateOnRename_renames (st : IndexState) (file : VFile) (oldPath : String)
    (hInv : Inv st) (hold : (mapGet st.indexMap oldPath).isSome = true)
    (hext : file.extension = "md") (hne : file.path ≠ oldPath) :
    mapGet (updateOnRename file oldPath st).indexMap oldPath = none ∧
      mapGet (updateOnRename file oldPath st).indexMap file.path =
        some (createMetadataEntry file) ∧
      (∀ e ∈ (updateOnRename file oldPath st).entries, e.path ≠ oldPath) ∧
      createMetadataEntry file ∈ (updateOnRename file oldPath st).entries := by
  obtain ⟨e, hg⟩ := Option.isSome_iff_exists.mp hold
  have hrw : updateOnRename file oldPath st = addFileMetadata file (removeFileByPath oldPath st) := by
    unfold updateOnRename
    rw [hg]
    rfl
  rw [hrw]
  have habs := removeFileByPath_absent oldPath st hInv
  refine ⟨?_, addFileMetadata_get_self file _ hext, ?_, ?_⟩
  · rw [addFileMetadata_get_ne file _ oldPath (fun hh => hne hh.symm)]
    exact habs.1
  · obtain ⟨pre, hpre, hsub⟩ := addFileMetadata_entries file _ hext
    intro e2 he2
    rw [hpre] at he2
    rcases List.mem_append.mp he2 with h | h
    · exact habs.2 e2 (hsub.subset h)
    · rw [List.mem_singleton] at h
      rw [h]
      exact hne
  · obtain ⟨pre, hpre, _⟩ := addFileMetadata_entries file _ hext
    rw [hpre]
    exact List.mem_append_right _ (List.mem_singleton.mpr rfl)

/-- Witness for C7's amended theorem on the concrete rename scenario. -/
theorem updateOnRename_renames_witness :
    mapGet (updateOnRename fileB "a.md" stA).indexMap "a.md" = none ∧
      mapGet (updateOnRename fileB "a.md" stA).indexMap fileB.path =
        some (createMetadataEntry fileB) ∧
      (∀ e ∈ (updateOnRename fileB "a.md" stA).entries, e.path ≠ "a.md") ∧
      createMetadataEntry fileB ∈ (updateOnRename fileB "a.md" stA).entries :=
  updateOnRename_renames stA fileB "a.md" (addFileMetadata_inv fileA initState inv_initState)
    (by decide) rfl (by decide)

/-! ### Claim C10: every operation sequence preserves the invariant -/

/-- The public lifecycle operations of `HangulIndex`. -/
inductive IndexOp where
  | build (files : List VFile) : IndexOp
  | addMeta (file : VFile) : IndexOp
  | add (file : VFile) : IndexOp
  | remove (file : VFile) : IndexOp
  | update (file : VFile) : IndexOp
  | rename (file : VFile) (oldPath : String) : IndexOp
  | clear : IndexOp

def applyOp (st : IndexState) : IndexOp → IndexState
  | IndexOp.build files => buildIndex files st
  | IndexOp.addMeta f => addFileMetadata f st
  | IndexOp.add f => addFile f st
  | IndexOp.remove f => removeFile f st
  | IndexOp.update f => updateFile f st
  | IndexOp.rename f oldPath => updateOnRename f oldPath st
  | IndexOp.clear => clearIndex st

/-- Index state reached from a fresh index by a sequence of operations. -/
def runOps (ops : List IndexOp) : IndexState :=
  ops.foldl applyOp initState

theorem foldl_addFileMetadata_inv (files : List VFile) (st : IndexState) (h : Inv st) :
    Inv (files.foldl (fun s f => addFileMetadata f s) st) := by
  induction files generalizing st with
  | nil => exact h
  | cons f fs ih => exact ih _ (addFileMetadata_inv f st h)

theorem buildIndex_inv (files : List VFile) (st : IndexState) : Inv (buildIndex files st) :=
  foldl_addFileMetadata_inv files (clearIndex st) inv_initState

theorem updateOnRename_inv (f : VFile) (oldPath : String) (st : IndexState) (h : Inv st) :
    Inv (updateOnRename f oldPath st) := by
  cases hg : mapGet st.indexMap oldPath with
  | none =>
    have hrw : updateOnRename f oldPath st = st := by
      unfold updateOnRename
      rw [hg]
    rw [hrw]
    exact h
  | some e =>
    have hrw : updateOnRename f oldPath st =
        addFileMetadata f (removeFileByPath oldPath st) := by
      unfold updateOnRename
      rw [hg]
      rfl
    rw [hrw]
    exact addFileMetadata_inv _ _ (removeFileByPath_inv _ _ h)

theorem updateFile_inv (f : VFile) (st : IndexState) (h : Inv st) : Inv (updateFile f st) := by
  unfold updateFile
  by_cases hext : f.extension ≠ "md"
  · rw [if_pos hext]
    exact h
  · rw [if_neg hext]
    exact addFileMetadata_inv _ _ (removeFileByPath_inv _ _ h)

theorem applyOp_inv (st : IndexState) (op : IndexOp) (h : Inv st) : Inv (applyOp st op) := by
  cases op with
  | build files => exact buildIndex_inv files st
  | addMeta f => exact addFileMetadata_inv f st h
  | add f => exact addFileMetadata_inv f st h
  | remove f => exact removeFileByPath_inv f.path st h
  | update f => exact updateFile_inv f st h
  | rename f oldPath => exact updateOnRename_inv f oldPath st h
  | clear => exact inv_initState

/-- C10: after every sequence of index operations the entries array and the
path map agree (each array entry is stored in the map under its own path,
each map binding points back to an array entry under its key, and no path
repeats in either structure), and `getIndexedCount` equals the number of
distinct indexed paths. -/
theorem index_state_invariant (ops : List IndexOp) :
    Inv (runOps ops) ∧
      getIndexedCount (runOps ops) =
        ((runOps ops).entries.map (fun e => e.path)).dedup.length := by
  have key : ∀ (l : List IndexOp) (st : IndexState), Inv st → Inv (l.foldl applyOp st) := by
    intro l
    induction l with
    | nil => intro st h; exact h
    | cons op l ih => intro st h; exact ih _ (applyOp_inv st op h)
  have hInv : Inv (runOps ops) := key ops initState inv_initState
  refine ⟨hInv, ?_⟩
  rw [hInv.2.2.1.dedup]
  unfold getIndexedCount
  rw [List.length_map]

/-! ## Claim C1: merge by path with maximum bonused score -/

/-- Fold a list of (entry, bonused score) insertions into the result map. -/
def foldMerge (ins : List (IndexEntry × ℚ)) (res : List IndexEntry) : List IndexEntry :=
  ins.foldl (fun r p => mergeResult r p.1 p.2) res

/-- Insertions performed by one Fuse-backed strategy. -/
def insertsOfStrategy (f : FuseFn) (now : ℚ) (term : String) (strategy : Strategy) :
    List (IndexEntry × ℚ) :=
  (f term).map (fun p => (p.1, calculateRelevanceScore p.1 term p.2 strategy now))

/-- Insertions performed by one entry-scanning strategy. -/
def insertsOfCond (cond : IndexEntry → Bool) (sc : IndexEntry → ℚ)
    (entries : List IndexEntry) : List (IndexEntry × ℚ) :=
  entries.filterMap (fun e => if cond e then some (e, sc e) else none)

/-- All insertions of one `performKoreanSearch` call, strategy by strategy
with the guards of the source. -/
def allInserts (f : FuseFn) (now : ℚ) (entries : List IndexEntry) (query : String) :
    List (IndexEntry × ℚ) :=
  insertsOfStrategy f now query Strategy.direct ++
    (if decomposeKoreanText query ≠ query then
      insertsOfStrategy f now (decomposeKoreanText query) Strategy.decomposed
    else []) ++
    (if isInitialConsonantQuery query then
      insertsOfCond (fun e => strIncludes (extractInitialConsonants e.display) query)
        (fun e => calculateRelevanceScore e query (3 / 10) Strategy.initialCons now) entries
    else []) ++
    (if isPartialSyllableQuery query then
      insertsOfCond (fun e => matchesPartialSyllable e.display query)
        (fun e => calculateRelevanceScore e query (1 / 5) Strategy.partialSyl now) entries
    else [])

/-- The bonused scores inserted for one document path. -/
def scoresFor (ins : List (IndexEntry × ℚ)) (p : String) : List ℚ :=
  (ins.filter (fun x => x.1.path == p)).map (fun x => x.2)

/-- The bonused scores computed for path `p` across all strategies that
matched it during one `performKoreanSearch` call. -/
def candScores (f : FuseFn) (now : ℚ) (entries : List IndexEntry) (query p : String) :
    List ℚ :=
  scoresFor (allInserts f now entries query) p

/-- Maximum of a list of scores (0 for the empty list). -/
def maxScore : List ℚ → ℚ
  | [] => 0
  | s :: t => t.foldl (fun a b => if a < b then b else a) s

/-- One merge step on the best-score-so-far for a path. -/
def bestStep (o : Option ℚ) (s : ℚ) : Option ℚ :=
  match o with
  | none => some s
  | some m => if m < s then some s else some m

def bestOf (o : Option ℚ) (l : List ℚ) : Option ℚ :=
  l.foldl bestStep o

theorem searchByStrategy_eq (f : FuseFn) (now : ℚ) (term : String) (res : List IndexEntry)
    (strategy : Strategy) :
    searchByStrategy f now term res strategy =
      foldMerge (insertsOfStrategy f now term strategy) res := by
  unfold searchByStrategy foldMerge insertsOfStrategy
  rw [List.foldl_map]

theorem condFold_eq (cond : IndexEntry → Bool) (sc : IndexEntry → ℚ)
    (entries res : List IndexEntry) :
    condFold cond sc entries res = foldMerge (insertsOfCond cond sc entries) res := by
  induction entries generalizing res with
  | nil => rfl
  | cons a es ih =>
    have h1 : condFold cond sc (a :: es) res =
        condFold cond sc es (if cond a then mergeResult res a (sc a) else res) := rfl
    rw [h1, ih]
    by_cases hc : cond a
    · rw [if_pos hc]
      have h2 : insertsOfCond cond sc (a :: es) = (a, sc a) :: insertsOfCond cond sc es := by
        unfold insertsOfCond
        rw [List.filterMap_cons, if_pos hc]
      rw [h2]
      rfl
    · rw [if_neg hc]
      have h2 : insertsOfCond cond sc (a :: es) = insertsOfCond cond sc es := by
        unfold insertsOfCond
        rw [List.filterMap_cons, if_neg hc]
      rw [h2]

theorem foldMerge_append (a b : List (IndexEntry × ℚ)) (res : List IndexEntry) :
    foldMerge (a ++ b) res = foldMerge b (foldMerge a res) := by
  unfold foldMerge
  rw [List.foldl_append]

theorem performKoreanSearch_eq (f : FuseFn) (now : ℚ) (entries : List IndexEntry)
    (query : String) :
    performKoreanSearch f now entries query =
      foldMerge (allInserts f now entries query) [] := by
  unfold performKoreanSearch allInserts
  rw [foldMerge_append, foldMerge_append, foldMerge_append]
  rw [← searchByStrategy_eq]
  have h2 : ∀ r : List IndexEntry,
      foldMerge (if decomposeKoreanText query ≠ query then
        insertsOfStrategy f now (decomposeKoreanText query) Strategy.decomposed else []) r =
      (if decomposeKoreanText query ≠ query then
        searchByStrategy f now (decomposeKoreanText query) r Strategy.decomposed else r) := by
    intro r
    by_cases hc : decomposeKoreanText query ≠ query
    · rw [if_pos hc, if_pos hc, searchByStrategy_eq]
    · rw [if_neg hc, if_neg hc]
      rfl
  have h3 : ∀ r : List IndexEntry,
      foldMerge (if isInitialConsonantQuery query then
        insertsOfCond (fun e => strIncludes (extractInitialConsonants e.display) query)
          (fun e => calculateRelevanceScore e query (3 / 10) Strategy.initialCons now) entries
        else []) r =
      (if isInitialConsonantQuery query then searchByInitialConsonants now query entries r
        else r) := by
    intro r
    by_cases hc : isInitialConsonantQuery query
    · rw [if_pos hc, if_pos hc]
      rw [show searchByInitialConsonants now query entries r =
        condFold (fun e => strIncludes (extractInitialConsonants e.display) query)
          (fun e => calculateRelevanceScore e query (3 / 10) Strategy.initialCons now)
          entries r from rfl]
      rw [condFold_eq]
    · rw [if_neg hc, if_neg hc]
      rfl
  have h4 : ∀ r : List IndexEntry,
      foldMerge (if isPartialSyllableQuery query then
        insertsOfCond (fun e => matchesPartialSyllable e.display query)
          (fun e => calculateRelevanceScore e query (1 / 5) Strategy.partialSyl now) entries
        else []) r =
      (if isPartialSyllableQuery query then searchByPartialSyllables now query entries r
        else r) := by
    intro r
    by_cases hc : isPartialSyllableQuery query
    · rw [if_pos hc, if_pos hc]
      rw [show searchByPartialSyllables now query entries r =
        condFold (fun e => matchesPartialSyllable e.display query)
          (fun e => calculateRelevanceScore e query (1 / 5) Strategy.partialSyl now)
          entries r from rfl]
      rw [condFold_eq]
    · rw [if_neg hc, if_neg hc]
      rfl
  rw [h2, h3, h4]

theorem find?_entryReplace_self (res : List IndexEntry) (k : String) (v : IndexEntry)
    (hv : v.path = k) :
    (res.map (fun e => if e.path == k then v else e)).find? (fun e => e.path == k) =
      (res.find? (fun e => e.path == k)).map (fun _ => v) := by
  induction res with
  | nil => rfl
  | cons a res ih =>
    by_cases ha : a.path == k
    · have hvk : (v.path == k) = true := by simp [hv]
      rw [List.map_cons, if_pos ha]
      simp only [List.find?_cons, hvk, ha]
      rfl
    · rw [List.map_cons, if_neg ha]
      have ha2 : (a.path == k) = false := by simpa using ha
      simp only [List.find?_cons, ha2]
      exact ih

theorem find?_entryReplace_ne (res : List IndexEntry) (k : String) (v : IndexEntry)
    (p : String) (hv : v.path = k) (h : p ≠ k) :
    (res.map (fun e => if e.path == k then v else e)).find? (fun e => e.path == p) =
      res.find? (fun e => e.path == p) := by
  induction res with
  | nil => rfl
  | cons a res ih =>
    by_cases ha : a.path == k
    · have hak : a.path = k := by simpa using ha
      have hvp : (v.path == p) = false := by
        rw [hv]
        exact beq_eq_false_iff_ne.mpr fun hh => h hh.symm
      have hap : (a.path == p) = false := by
        rw [hak]
        exact beq_eq_false_iff_ne.mpr fun hh => h hh.symm
      rw [List.map_cons, if_pos ha]
      simp only [List.find?_cons, hvp, hap]
      exact ih
    · rw [List.map_cons, if_neg ha]
      by_cases hap : a.path == p
      · simp only [List.find?_cons, hap]
      · have hap2 : (a.path == p) = false := by simpa using hap
        simp only [List.find?_cons, hap2]
        exact ih

theorem mergeResult_find_eq (res : List IndexEntry) (item : IndexEntry) (s : ℚ) :
    ((mergeResult res item s).find? (fun e => e.path == item.path)).map (fun e => e.score) =
      bestStep ((res.find? (fun e => e.path == item.path)).map (fun e => e.score)) s := by
  cases hf : res.find? (fun e => e.path == item.path) with
  | none =>
    have hm : mergeResult res item s = res ++ [{ item with score := s }] := by
      unfold mergeResult
      rw [hf]
    rw [hm, List.find?_append, hf, List.find?_cons_of_pos _ (by simp), Option.none_or]
    rfl
  | some old =>
    by_cases hlt : old.score < s
    · have hm : mergeResult res item s =
          res.map (fun e => if e.path == item.path then { item with score := s } else e) := by
        unfold mergeResult
        rw [hf]
        exact if_pos hlt
      rw [hm, find?_entryReplace_self res item.path { item with score := s } rfl, hf]
      show some s = bestStep (some old.score) s
      simp only [bestStep]
      rw [if_pos hlt]
    · have hm : mergeResult res item s = res := by
        unfold mergeResult
        rw [hf]
        exact if_neg hlt
      rw [hm, hf]
      show some old.score = bestStep (some old.score) s
      simp only [bestStep]
      rw [if_neg hlt]

theorem mergeResult_find_ne (res : List IndexEntry) (item : IndexEntry) (s : ℚ)
    (p : String) (hp : item.path ≠ p) :
    (mergeResult res item s).find? (fun e => e.path == p) =
      res.find? (fun e => e.path == p) := by
  cases hf : res.find? (fun e => e.path == item.path) with
  | none =>
    have hm : mergeResult res item s = res ++ [{ item with score := s }] := by
      unfold mergeResult
      rw [hf]
    have hip : (({ item with score := s } : IndexEntry).path == p) = false := by
      exact beq_eq_false_iff_ne.mpr hp
    rw [hm, List.find?_append]
    simp only [List.find?_cons, List.find?_nil, hip, Option.or_none]
  | some old =>
    by_cases hlt : old.score < s
    · have hm : mergeResult res item s =
          res.map (fun e => if e.path == item.path then { item with score := s } else e) := by
        unfold mergeResult
        rw [hf]
        exact if_pos hlt
      rw [hm, find?_entryReplace_ne res item.path { item with score := s } p rfl
        (fun hh => hp hh.symm)]
    · have hm : mergeResult res item s = res := by
        unfold mergeResult
        rw [hf]
        exact if_neg hlt
      rw [hm]

theorem foldMerge_find (ins : List (IndexEntry × ℚ)) (res : List IndexEntry) (p : String) :
    ((foldMerge ins res).find? (fun e => e.path == p)).map (fun e => e.score) =
      bestOf ((res.find? (fun e => e.path == p)).map (fun e => e.score)) (scoresFor ins p) := by
  induction ins generalizing res with
  | nil => rfl
  | cons pr rest ih =>
    have h1 : foldMerge (pr :: rest) res = foldMerge rest (mergeResult res pr.1 pr.2) := rfl
    rw [h1, ih]
    by_cases hip : pr.1.path == p
    · have hip2 : pr.1.path = p := by simpa using hip
      have h2 : scoresFor (pr :: rest) p = pr.2 :: scoresFor rest p := by
        unfold scoresFor
        simp [List.filter_cons, hip]
      rw [h2]
      show bestOf _ _ = bestOf _ _
      unfold bestOf
      rw [List.foldl_cons]
      congr 1
      rw [← hip2, mergeResult_find_eq]
    · have hip2 : pr.1.path ≠ p := by simpa using hip
      have h2 : scoresFor (pr :: rest) p = scoresFor rest p := by
        unfold scoresFor
        have hip3 : (pr.1.path == p) = false := by simpa using hip
        simp [List.filter_cons, hip3]
      rw [h2, mergeResult_find_ne res pr.1 pr.2 p hip2]

theorem bestOf_some (l : List ℚ) (a : ℚ) :
    bestOf (some a) l = some (l.foldl (fun x y => if x < y then y else x) a) := by
  induction l generalizing a with
  | nil => rfl
  | cons b t ih =>
    show bestOf (bestStep (some a) b) t = _
    rw [List.foldl_cons]
    simp only [bestStep]
    by_cases hab : a < b
    · rw [if_pos hab, if_pos hab, ih]
    · rw [if_neg hab, if_neg hab, ih]

theorem bestOf_none_nonempty (l : List ℚ) (h : l ≠ []) :
    bestOf none l = some (maxScore l) := by
  cases l with
  | nil => exact absurd rfl h
  | cons s t =>
    show bestOf (bestStep none s) t = _
    unfold bestStep maxScore
    exact bestOf_some t s

theorem mergeResult_nodup (res : List IndexEntry) (item : IndexEntry) (s : ℚ)
    (h : (res.map (fun e => e.path)).Nodup) :
    ((mergeResult res item s).map (fun e => e.path)).Nodup := by
  cases hf : res.find? (fun e => e.path == item.path) with
  | none =>
    have hm : mergeResult res item s = res ++ [{ item with score := s }] := by
      unfold mergeResult
      rw [hf]
    rw [hm, List.map_append]
    refine List.Nodup.append h (List.nodup_singleton _) ?_
    intro a ha hb
    simp only [List.map_cons, List.map_nil, List.mem_singleton] at hb
    rw [List.mem_map] at ha
    obtain ⟨e, hemem, hep⟩ := ha
    have := List.find?_eq_none.mp hf e hemem
    apply this
    rw [hep, hb]
    simp
  | some old =>
    by_cases hlt : old.score < s
    · have hm : mergeResult res item s =
          res.map (fun e => if e.path == item.path then { item with score := s } else e) := by
        unfold mergeResult
        rw [hf]
        exact if_pos hlt
      rw [hm, List.map_map]
      have : ((fun e => e.path) ∘ fun e =>
          if e.path == item.path then { item with score := s } else e) = fun e => e.path := by
        funext e
        by_cases he : e.path == item.path
        · simp only [Function.comp, if_pos he]
          have : e.path = item.path := by simpa using he
          rw [this]
        · simp only [Function.comp, if_neg he]
      rw [this]
      exact h
    · have hm : mergeResult res item s = res := by
        unfold mergeResult
        rw [hf]
        exact if_neg hlt
      rw [hm]
      exact h

theorem foldMerge_nodup (ins : List (IndexEntry × ℚ)) (res : List IndexEntry)
    (h : (res.map (fun e => e.path)).Nodup) :
    ((foldMerge ins res).map (fun e => e.path)).Nodup := by
  induction ins generalizing res with
  | nil => exact h
  | cons pr rest ih => exact ih _ (mergeResult_nodup res pr.1 pr.2 h)

theorem countP_path_eq_one (out : List IndexEntry) (p : String)
    (hnd : (out.map (fun e => e.path)).Nodup) (e : IndexEntry)
    (hf : out.find? (fun e2 => e2.path == p) = some e) :
    out.countP (fun e2 => e2.path == p) = 1 := by
  induction out with
  | nil => simp at hf
  | cons a l ih =>
    rw [List.map_cons] at hnd
    by_cases ha : a.path == p
    · have hcnt : List.countP (fun e2 => e2.path == p) (a :: l) =
          List.countP (fun e2 => e2.path == p) l + 1 := by
        simp [List.countP_cons, ha]
      rw [hcnt]
      have hzero : l.countP (fun e2 => e2.path == p) = 0 := by
        rw [List.countP_eq_zero]
        intro e2 he2 hp2
        have hp3 : e2.path = p := by simpa using hp2
        have hap : a.path = p := by simpa using ha
        have : a.path ∈ l.map (fun e => e.path) := by
          rw [List.mem_map]
          exact ⟨e2, he2, by rw [hp3, hap]⟩
        exact (List.nodup_cons.mp hnd).1 this
      rw [hzero]
    · have ha2 : (a.path == p) = false := by simpa using ha
      have hcnt : List.countP (fun e2 => e2.path == p) (a :: l) =
          List.countP (fun e2 => e2.path == p) l := by
        simp [List.countP_cons, ha2]
      have hf2 : l.find? (fun e2 => e2.path == p) = some e := by
        simp only [List.find?_cons, ha2] at hf
        exact hf
      rw [hcnt]
      exact ih (List.nodup_cons.mp hnd).2 hf2

/-- C1: for every query, every behaviour of the Fuse boundary, and every
document path with at least one matching strategy during one
`performKoreanSearch` call, the merged result list contains that path
exactly once, and the recorded score of its entry is the maximum of the
bonused scores computed for that path across all strategies that matched
it (the `search` wrapper then only sorts and truncates this list). -/
theorem performKoreanSearch_merge_max (f : FuseFn) (now : ℚ) (entries : List IndexEntry)
    (query p : String) (h : candScores f now entries query p ≠ []) :
    (performKoreanSearch f now entries query).countP (fun e => e.path == p) = 1 ∧
      ∃ e, (performKoreanSearch f now entries query).find? (fun e2 => e2.path == p) = some e ∧
        e.path = p ∧ e.score = maxScore (candScores f now entries query p) := by
  have hout := performKoreanSearch_eq f now entries query
  have hfind := foldMerge_find (allInserts f now entries query) [] p
  rw [show (([] : List IndexEntry).find? (fun e => e.path == p)).map (fun e => e.score) =
    none from rfl] at hfind
  rw [show scoresFor (allInserts f now entries query) p =
    candScores f now entries query p from rfl] at hfind
  rw [bestOf_none_nonempty _ h] at hfind
  rw [← hout] at hfind
  cases hf2 : (performKoreanSearch f now entries query).find? (fun e2 => e2.path == p) with
  | none =>
    rw [hf2] at hfind
    simp at hfind
  | some e =>
    rw [hf2] at hfind
    simp only [Option.map] at hfind
    rw [Option.some_inj] at hfind
    have hpath : e.path = p := by simpa using List.find?_some hf2
    have hnd : ((performKoreanSearch f now entries query).map (fun e => e.path)).Nodup := by
      rw [hout]
      exact foldMerge_nodup _ [] List.nodup_nil
    exact ⟨countP_path_eq_one _ p hnd e hf2, e, rfl, hpath, hfind⟩

/-- Concrete data witnessing C1: one document matched by both the direct
strategy and the initial-consonant strategy. -/
def entGN : IndexEntry :=
  { display := "ㄱㄴ", jamo := "ㄱㄴ", path := "p1", content := "", contentJamo := ""
    score := 0, size := 0, mtime := 0, contentLoaded := false }

def fuseGN : FuseFn := fun _ => [(entGN, 0)]

/-- Witness for C1 at a query matched by two strategies: the merged result
holds the path once with the maximum of the two bonused scores. -/
theorem performKoreanSearch_merge_max_witness :
    (candScores fuseGN 0 [entGN] "ㄱ" "p1").length = 2 ∧
      ((performKoreanSearch fuseGN 0 [entGN] "ㄱ").countP (fun e => e.path == "p1") = 1 ∧
        ∃ e, (performKoreanSearch fuseGN 0 [entGN] "ㄱ").find? (fun e2 => e2.path == "p1") =
            some e ∧
          e.path = "p1" ∧ e.score = maxScore (candScores fuseGN 0 [entGN] "ㄱ" "p1")) :=
  ⟨by decide, performKoreanSearch_merge_max fuseGN 0 [entGN] "ㄱ" "p1" (by decide)⟩

/-! ## Claim C9: the composition round trip -/

theorem char_toNat_ofNat_valid (n : Nat) (h : n < 0xD800) : (Char.ofNat n).toNat = n := by
  have hv : n.isValidChar := Or.inl h
  unfold Char.ofNat
  rw [dif_pos hv]
  rfl

theorem blockOf_toNat (l v t : Nat) (hl : l < 19) (hv : v < 21) (ht : t < 28) :
    (blockOf l v t).toNat = 0xAC00 + (l * 588 + v * 28 + t) := by
  unfold blockOf
  apply char_toNat_ofNat_valid
  omega

theorem isBlock_blockOf (l v t : Nat) (hl : l < 19) (hv : v < 21) (ht : t < 28) :
    isBlock (blockOf l v t) = true := by
  unfold isBlock
  rw [blockOf_toNat l v t hl hv ht]
  simp only [Bool.and_eq_true, decide_eq_true_eq]
  omega

theorem getD_default_irrel (xs : List Char) (n : Nat) (d1 d2 : Char) (h : n < xs.length) :
    xs.getD n d1 = xs.getD n d2 := by
  rw [List.getD_eq_getElem _ _ h, List.getD_eq_getElem _ _ h]

theorem disassembleChar_blockOf (l v t : Nat) (hl : l < 19) (hv : v < 21) (ht : t < 28) :
    disassembleChar (blockOf l v t) =
      CHO.getD l 'ㄱ' :: (jungUnitsOf (JUNG.getD v 'ㅏ') ++ jongUnitsOf t) := by
  rw [disassembleChar_block _ (isBlock_blockOf l v t hl hv ht)]
  have hx : (blockOf l v t).toNat - 0xAC00 = l * 588 + v * 28 + t := by
    rw [blockOf_toNat l v t hl hv ht]
    omega
  rw [hx]
  have h1 : (l * 588 + v * 28 + t) / 588 = l := by omega
  have h2 : ((l * 588 + v * 28 + t) % 588) / 28 = v := by omega
  have h3 : (l * 588 + v * 28 + t) % 28 = t := by omega
  rw [h1, h2, h3]
  have hl2 : l < CHO.length := hl
  have hv2 : v < JUNG.length := hv
  rw [getD_default_irrel CHO l _ 'ㄱ' hl2, getD_default_irrel JUNG v _ 'ㅏ' hv2]

theorem choFacts : ∀ i : Fin 19,
    isChoU (CHO.getD i.val 'ㄱ') = true ∧ isJungU (CHO.getD i.val 'ㄱ') = false ∧
      choHash (CHO.getD i.val 'ㄱ') = some i.val ∧
      disassembleChar (CHO.getD i.val 'ㄱ') = [CHO.getD i.val 'ㄱ'] := by
  decide

theorem jungFacts : ∀ i : Fin 21,
    jungHash (JUNG.getD i.val 'ㅏ') = some i.val ∧
      ((jungUnitsOf (JUNG.getD i.val 'ㅏ') = [JUNG.getD i.val 'ㅏ'] ∧
          isJungU (JUNG.getD i.val 'ㅏ') = true ∧ isChoU (JUNG.getD i.val 'ㅏ') = false ∧
          isJongU (JUNG.getD i.val 'ㅏ') = false ∧
          disassembleChar (JUNG.getD i.val 'ㅏ') = [JUNG.getD i.val 'ㅏ']) ∨
        (jungUnitsOf (JUNG.getD i.val 'ㅏ') =
            [(jungUnitsOf (JUNG.getD i.val 'ㅏ')).headD 'ㅏ',
              ((jungUnitsOf (JUNG.getD i.val 'ㅏ')).tail).headD 'ㅏ'] ∧
          (isJungU ((jungUnitsOf (JUNG.getD i.val 'ㅏ')).headD 'ㅏ') = true ∧
            isChoU ((jungUnitsOf (JUNG.getD i.val 'ㅏ')).headD 'ㅏ') = false ∧
            isJongU ((jungUnitsOf (JUNG.getD i.val 'ㅏ')).headD 'ㅏ') = false ∧
            disassembleChar ((jungUnitsOf (JUNG.getD i.val 'ㅏ')).headD 'ㅏ') =
              [(jungUnitsOf (JUNG.getD i.val 'ㅏ')).headD 'ㅏ']) ∧
          (isJungU (((jungUnitsOf (JUNG.getD i.val 'ㅏ')).tail).headD 'ㅏ') = true ∧
            isChoU (((jungUnitsOf (JUNG.getD i.val 'ㅏ')).tail).headD 'ㅏ') = false ∧
            isJongU (((jungUnitsOf (JUNG.getD i.val 'ㅏ')).tail).headD 'ㅏ') = false ∧
            disassembleChar (((jungUnitsOf (JUNG.getD i.val 'ㅏ')).tail).headD 'ㅏ') =
              [((jungUnitsOf (JUNG.getD i.val 'ㅏ')).tail).headD 'ㅏ']) ∧
          combinePair JUNGPAIRS ((jungUnitsOf (JUNG.getD i.val 'ㅏ')).headD 'ㅏ')
              (((jungUnitsOf (JUNG.getD i.val 'ㅏ')).tail).headD 'ㅏ') =
            some (JUNG.getD i.val 'ㅏ'))) := by
  decide

theorem jongFacts : ∀ i : Fin 28,
    (jongUnitsOf i.val = [] ∧ i.val = 0) ∨
      (jongUnitsOf i.val = [(jongUnitsOf i.val).headD 'ㄱ'] ∧
        isJongU ((jongUnitsOf i.val).headD 'ㄱ') = true ∧
        isJungU ((jongUnitsOf i.val).headD 'ㄱ') = false ∧
        jongHash ((jongUnitsOf i.val).headD 'ㄱ') = some i.val ∧
        disassembleChar ((jongUnitsOf i.val).headD 'ㄱ') = [(jongUnitsOf i.val).headD 'ㄱ']) ∨
      (jongUnitsOf i.val =
          [(jongUnitsOf i.val).headD 'ㄱ', ((jongUnitsOf i.val).tail).headD 'ㄱ'] ∧
        (isJongU ((jongUnitsOf i.val).headD 'ㄱ') = true ∧
          isJungU ((jongUnitsOf i.val).headD 'ㄱ') = false ∧
          disassembleChar ((jongUnitsOf i.val).headD 'ㄱ') = [(jongUnitsOf i.val).headD 'ㄱ']) ∧
        (isJongU (((jongUnitsOf i.val).tail).headD 'ㄱ') = true ∧
          isJungU (((jongUnitsOf i.val).tail).headD 'ㄱ') = false ∧
          disassembleChar (((jongUnitsOf i.val).tail).headD 'ㄱ') =
            [((jongUnitsOf i.val).tail).headD 'ㄱ']) ∧
        combinePair JONGPAIRS ((jongUnitsOf i.val).headD 'ㄱ')
            (((jongUnitsOf i.val).tail).headD 'ㄱ') = some (JONGT.getD (i.val - 1) 'ㄱ') ∧
        jongHash (JONGT.getD (i.val - 1) 'ㄱ') = some i.val) := by
  decide

theorem combinePair_second (table : List (Char × Char × Char)) (a b z : Char)
    (h : combinePair table a b = some z) : ∃ p ∈ table, p.2.1 = b := by
  unfold combinePair at h
  cases hf : table.find? (fun p => p.1 == a && p.2.1 == b) with
  | none => rw [hf] at h; simp at h
  | some p =>
    have hp := List.find?_some hf
    simp only [Bool.and_eq_true, beq_iff_eq] at hp
    exact ⟨p, List.mem_of_find?_eq_some hf, hp.2⟩

theorem combineJung_none (a b : Char) (hb : isJungU b = false) :
    combinePair JUNGPAIRS a b = none := by
  cases hz : combinePair JUNGPAIRS a b with
  | none => rfl
  | some z =>
    obtain ⟨p, hp, hpb⟩ := combinePair_second JUNGPAIRS a b z hz
    have : ∀ q ∈ JUNGPAIRS, isJungU q.2.1 = true := by decide
    rw [← hpb, this p hp] at hb
    exact absurd hb (by simp)

/-! ### Step equations of the assemble loop -/

theorem runFrom_cons (st : AsmSt) (c : Char) (cs : List Char) :
    runFrom st (c :: cs) = runFrom (asmStep st c) cs := rfl

theorem runFrom_nil (st : AsmSt) :
    runFrom st [] = st.res ++ (flushSeg st.pending).toList := rfl

theorem step_foreign (res : List Char) (sg : Nat) (pend : List Char) (p : Char) (j : Bool)
    (c : Char) (h1 : isChoU c = false) (h2 : isJungU c = false) (h3 : isJongU c = false) :
    asmStep ⟨res, sg, pend, p, j⟩ c =
      ⟨res ++ (flushSeg pend).toList ++ [c], 0, [], p, false⟩ := by
  simp [asmStep, h1, h2, h3, flushAll, flushThrough, flushSeg]

theorem step0_cho (res pend : List Char) (p : Char) (j : Bool) (c : Char)
    (h : isChoU c = true) :
    asmStep ⟨res, 0, pend, p, j⟩ c = ⟨res, 1, pend ++ [c], c, j⟩ := by
  simp [asmStep, asmStepJamo, h]

theorem step0_jung (res pend : List Char) (p : Char) (j : Bool) (c : Char)
    (hc : isChoU c = false) (h : isJungU c = true) :
    asmStep ⟨res, 0, pend, p, j⟩ c = ⟨res, 4, pend ++ [c], c, j⟩ := by
  simp [asmStep, asmStepJamo, hc, h]

theorem step0_jongonly (res pend : List Char) (p : Char) (j : Bool) (c : Char)
    (hc : isChoU c = false) (hju : isJungU c = false) (hjo : isJongU c = true) :
    asmStep ⟨res, 0, pend, p, j⟩ c = ⟨res, 0, pend ++ [c], c, j⟩ := by
  simp [asmStep, asmStepJamo, hc, hju, hjo]

theorem step1_jung (res pend : List Char) (p : Char) (j : Bool) (c : Char)
    (h : isJungU c = true) :
    asmStep ⟨res, 1, pend, p, j⟩ c = ⟨res, 2, pend ++ [c], c, j⟩ := by
  simp [asmStep, asmStepJamo, h]

theorem step2_jong (res pend : List Char) (p : Char) (j : Bool) (c : Char)
    (h : isJongU c = true) :
    asmStep ⟨res, 2, pend, p, j⟩ c = ⟨res, 3, pend ++ [c], c, j⟩ := by
  simp [asmStep, asmStepJamo, h]

theorem step2_jung_join (res pend : List Char) (p : Char) (j : Bool) (c : Char)
    (hjo : isJongU c = false) (hju : isJungU c = true)
    (hjn : (combinePair JUNGPAIRS p c).isSome = true) :
    asmStep ⟨res, 2, pend, p, j⟩ c = ⟨res, 2, pend ++ [c], c, j⟩ := by
  simp [asmStep, asmStepJamo, hjo, hju, hjn]

theorem step2_cons (res pend : List Char) (p : Char) (j : Bool) (c : Char)
    (hch : isChoU c = true) (hju : isJungU c = false) (hjo : isJongU c = false) :
    asmStep ⟨res, 2, pend, p, j⟩ c =
      ⟨res ++ (flushSeg pend).toList, 1, [c], c, false⟩ := by
  simp [asmStep, asmStepJamo, hch, hju, hjo, flushAll]

theorem step3_jong_join (res pend : List Char) (p : Char) (c : Char)
    (hjo : isJongU c = true) (hjn : (combinePair JONGPAIRS p c).isSome = true) :
    asmStep ⟨res, 3, pend, p, false⟩ c = ⟨res, 3, pend ++ [c], c, true⟩ := by
  simp [asmStep, asmStepJamo, hjo, hjn]

theorem step3_jong_nojoin (res pend : List Char) (p : Char) (j : Bool) (c : Char)
    (hjo : isJongU c = true)
    (hcond : (!j && (combinePair JONGPAIRS p c).isSome) = false) :
    asmStep ⟨res, 3, pend, p, j⟩ c =
      ⟨res ++ (flushSeg pend).toList, 1, [c], c, false⟩ := by
  have hcond2 : ¬((!j) = true ∧ (combinePair JONGPAIRS p c).isSome = true) := by
    rintro ⟨ha, hb⟩
    rw [ha, hb] at hcond
    exact absurd hcond (by simp)
  simp [asmStep, asmStepJamo, hjo, hcond2, flushAll]
  intro hj
  rw [hj] at hcond
  simp only [Bool.not_false, Bool.true_and] at hcond
  cases hx : combinePair JONGPAIRS p c with
  | none => rfl
  | some z => rw [hx] at hcond; simp at hcond

theorem step3_cho (res pend : List Char) (p : Char) (j : Bool) (c : Char)
    (hjo : isJongU c = false) (hch : isChoU c = true) :
    asmStep ⟨res, 3, pend, p, j⟩ c =
      ⟨res ++ (flushSeg pend).toList, 1, [c], c, false⟩ := by
  simp [asmStep, asmStepJamo, hjo, hch, flushAll]

theorem step3_jung (res pend : List Char) (p : Char) (j : Bool) (c : Char)
    (hjo : isJongU c = false) (hch : isChoU c = false) (hju : isJungU c = true) :
    asmStep ⟨res, 3, pend, p, j⟩ c =
      ⟨res ++ (flushSeg pend.dropLast).toList, 2,
        pend.drop (pend.length - 1) ++ [c], c, false⟩ := by
  simp [asmStep, asmStepJamo, hjo, hch, hju, flushKeepLast]

/-! ### Flushing a complete block -/

theorem blockChar_eq_blockOf (l v t : Nat) :
    blockChar (some l) (some v) (some t) = blockOf l v t := by
  show Char.ofNat ((l * 21 + v) * 28 + t + 0xAC00) = blockOf l v t
  unfold blockOf
  have h : (l * 21 + v) * 28 + t + 0xAC00 = 0xAC00 + (l * 588 + v * 28 + t) := by ring
  rw [h]

theorem flushSeg_lv (L V : Char) (l v : Nat)
    (hLc : isChoU L = true) (hLj : isJungU L = false) (hVc : isChoU V = false)
    (hL : choHash L = some l) (hV : jungHash V = some v) :
    flushSeg [L, V] = some (blockOf l v 0) := by
  simp only [flushSeg, hLj, hLc, hVc, Bool.not_true, if_false, if_true, Bool.false_eq_true,
    hL, hV]
  rw [blockChar_eq_blockOf]

theorem flushSeg_lvt (L V T : Char) (l v t : Nat)
    (hLc : isChoU L = true) (hLj : isJungU L = false) (hVc : isChoU V = false)
    (hTj : isJungU T = false)
    (hL : choHash L = some l) (hV : jungHash V = some v) (hT : jongHash T = some t) :
    flushSeg [L, V, T] = some (blockOf l v t) := by
  simp only [flushSeg, hLj, hLc, hVc, Bool.not_true, if_false, if_true, Bool.false_eq_true,
    combineJung_none V T hTj, hL, hV, jongHashD, hT]
  rw [blockChar_eq_blockOf]

theorem flushSeg_lvv (L V1 V2 W : Char) (l v : Nat)
    (hLc : isChoU L = true) (hLj : isJungU L = false) (hVc : isChoU V1 = false)
    (hJoin : combinePair JUNGPAIRS V1 V2 = some W)
    (hL : choHash L = some l) (hW : jungHash W = some v) :
    flushSeg [L, V1, V2] = some (blockOf l v 0) := by
  simp only [flushSeg, hLj, hLc, hVc, Bool.not_true, if_false, if_true, Bool.false_eq_true,
    hJoin, hL, hW, jongHashD]
  rw [blockChar_eq_blockOf]

theorem flushSeg_lvtt (L V T1 T2 TT : Char) (l v t : Nat)
    (hLc : isChoU L = true) (hLj : isJungU L = false) (hVc : isChoU V = false)
    (hT1j : isJungU T1 = false)
    (hJoin : combinePair JONGPAIRS T1 T2 = some TT)
    (hL : choHash L = some l) (hV : jungHash V = some v) (hTT : jongHash TT = some t) :
    flushSeg [L, V, T1, T2] = some (blockOf l v t) := by
  simp only [flushSeg, hLj, hLc, hVc, Bool.not_true, if_false, if_true, Bool.false_eq_true,
    combineJung_none V T1 hT1j, hJoin, hL, hV, hTT]
  rw [blockChar_eq_blockOf]

theorem flushSeg_lvvt (L V1 V2 W T : Char) (l v t : Nat)
    (hLc : isChoU L = true) (hLj : isJungU L = false) (hVc : isChoU V1 = false)
    (hJoin : combinePair JUNGPAIRS V1 V2 = some W)
    (hL : choHash L = some l) (hW : jungHash W = some v) (hT : jongHash T = some t) :
    flushSeg [L, V1, V2, T] = some (blockOf l v t) := by
  simp only [flushSeg, hLj, hLc, hVc, Bool.not_true, if_false, if_true, Bool.false_eq_true,
    hJoin, hL, hW, hT]
  rw [blockChar_eq_blockOf]

theorem flushSeg_lvvtt (L V1 V2 W T1 T2 TT : Char) (l v t : Nat)
    (hLc : isChoU L = true) (hLj : isJungU L = false) (hVc : isChoU V1 = false)
    (hJoinV : combinePair JUNGPAIRS V1 V2 = some W)
    (hJoinT : combinePair JONGPAIRS T1 T2 = some TT)
    (hL : choHash L = some l) (hW : jungHash W = some v) (hTT : jongHash TT = some t) :
    flushSeg [L, V1, V2, T1, T2] = some (blockOf l v t) := by
  simp only [flushSeg, hLj, hLc, hVc, Bool.not_true, if_false, if_true, Bool.false_eq_true,
    hJoinV, hJoinT, hL, hW, hTT]
  rw [blockChar_eq_blockOf]

/-! ### Running the machine over a decomposed stream -/

/-- A unit stream that starts a fresh group: empty, a unit that is no jamo at
all, or a leading consonant followed by a vowel (the first two units of a
decomposed block). -/
def FreshStart (rest : List Char) : Prop :=
  rest = [] ∨
    (∃ f t2, rest = f :: t2 ∧ isChoU f = false ∧ isJungU f = false ∧ isJongU f = false) ∨
    (∃ a b t2, rest = a :: b :: t2 ∧ isChoU a = true ∧ isJungU a = false ∧
      isJungU b = true ∧ isChoU b = false ∧ isJongU b = false)

theorem runFrom_prev (l : List Char) : ∀ (res : List Char) (p q : Char),
    runFrom ⟨res, 0, [], p, false⟩ l = runFrom ⟨res, 0, [], q, false⟩ l := by
  induction l with
  | nil => intro res p q; rfl
  | cons c t2 ih =>
    intro res p q
    rw [runFrom_cons, runFrom_cons]
    by_cases hch : isChoU c = true
    · rw [step0_cho _ _ _ _ _ hch, step0_cho _ _ _ _ _ hch]
    · rw [Bool.not_eq_true] at hch
      by_cases hju : isJungU c = true
      · rw [step0_jung _ _ _ _ _ hch hju, step0_jung _ _ _ _ _ hch hju]
      · rw [Bool.not_eq_true] at hju
        by_cases hjo : isJongU c = true
        · rw [step0_jongonly _ _ _ _ _ hch hju hjo, step0_jongonly _ _ _ _ _ hch hju hjo]
        · rw [Bool.not_eq_true] at hjo
          rw [step_foreign _ _ _ _ _ _ hch hju hjo, step_foreign _ _ _ _ _ _ hch hju hjo]
          exact ih _ p q

theorem run_pending2 (P : List Char) (b : Char) (hP : flushSeg P = some b)
    (res : List Char) (w p2 : Char) (rest : List Char) (hrest : FreshStart rest) :
    runFrom ⟨res, 2, P, w, false⟩ rest = runFrom ⟨res ++ [b], 0, [], p2, false⟩ rest := by
  rcases hrest with rfl | ⟨f, t2, rfl, hf1, hf2, hf3⟩ |
    ⟨a, b2, t2, rfl, ha1, ha2, hb1, hb2, hb3⟩
  · rw [runFrom_nil, runFrom_nil]
    show res ++ (flushSeg P).toList = (res ++ [b]) ++ (flushSeg []).toList
    rw [hP]
    simp [flushSeg]
  · rw [runFrom_cons, runFrom_cons, step_foreign _ _ _ _ _ _ hf1 hf2 hf3,
      step_foreign _ _ _ _ _ _ hf1 hf2 hf3, hP]
    have he : (res ++ [b]) ++ (flushSeg ([] : List Char)).toList ++ [f] =
        res ++ (some b).toList ++ [f] := by simp [flushSeg]
    rw [he]
    exact runFrom_prev t2 _ w p2
  · by_cases hjo : isJongU a = true
    · rw [runFrom_cons, step2_jong _ _ _ _ _ hjo, runFrom_cons,
        step3_jung _ _ _ _ _ hb3 hb2 hb1]
      rw [runFrom_cons, step0_cho _ _ _ _ _ ha1, runFrom_cons, step1_jung _ _ _ _ _ hb1]
      have h1 : (P ++ [a]).dropLast = P := by simp
      have h2 : (P ++ [a]).drop ((P ++ [a]).length - 1) = [a] := by
        simp [List.length_append]
      rw [h1, h2, hP]
      have he : ([] : List Char) ++ [a] ++ [b2] = [a] ++ [b2] := by simp
      rw [he]
      rfl
    · rw [Bool.not_eq_true] at hjo
      rw [runFrom_cons, step2_cons _ _ _ _ _ ha1 ha2 hjo, runFrom_cons,
        step1_jung _ _ _ _ _ hb1]
      rw [runFrom_cons, step0_cho _ _ _ _ _ ha1, runFrom_cons, step1_jung _ _ _ _ _ hb1]
      rw [hP]
      have he : ([] : List Char) ++ [a] ++ [b2] = [a] ++ [b2] := by simp
      rw [he]
      rfl

theorem run_pending3 (P : List Char) (b : Char) (hP : flushSeg P = some b)
    (res : List Char) (w p2 : Char) (j : Bool) (rest : List Char) (hrest : FreshStart rest) :
    runFrom ⟨res, 3, P, w, j⟩ rest = runFrom ⟨res ++ [b], 0, [], p2, false⟩ rest := by
  rcases hrest with rfl | ⟨f, t2, rfl, hf1, hf2, hf3⟩ |
    ⟨a, b2, t2, rfl, ha1, ha2, hb1, hb2, hb3⟩
  · rw [runFrom_nil, runFrom_nil]
    show res ++ (flushSeg P).toList = (res ++ [b]) ++ (flushSeg []).toList
    rw [hP]
    simp [flushSeg]
  · rw [runFrom_cons, runFrom_cons, step_foreign _ _ _ _ _ _ hf1 hf2 hf3,
      step_foreign _ _ _ _ _ _ hf1 hf2 hf3, hP]
    have he : (res ++ [b]) ++ (flushSeg ([] : List Char)).toList ++ [f] =
        res ++ (some b).toList ++ [f] := by simp [flushSeg]
    rw [he]
    exact runFrom_prev t2 _ w p2
  · have htarget : runFrom ⟨res ++ [b], 0, [], p2, false⟩ (a :: b2 :: t2) =
        runFrom ⟨res ++ [b], 2, [] ++ [a] ++ [b2], b2, false⟩ t2 := by
      rw [runFrom_cons, step0_cho _ _ _ _ _ ha1, runFrom_cons, step1_jung _ _ _ _ _ hb1]
    by_cases hjo : isJongU a = true
    · by_cases hcond : (!j && (combinePair JONGPAIRS w a).isSome) = true
      · have hj : j = false := by
          cases j
          · rfl
          · rw [show (!true) = false from rfl, Bool.false_and] at hcond
            exact absurd hcond (by simp)
        subst hj
        rw [Bool.not_false, Bool.true_and] at hcond
        rw [runFrom_cons, step3_jong_join _ _ _ _ hjo hcond, runFrom_cons,
          step3_jung _ _ _ _ _ hb3 hb2 hb1]
        have h1 : (P ++ [a]).dropLast = P := by simp
        have h2 : (P ++ [a]).drop ((P ++ [a]).length - 1) = [a] := by
          simp [List.length_append]
        rw [h1, h2, hP, htarget]
        have he : ([] : List Char) ++ [a] ++ [b2] = [a] ++ [b2] := by simp
        rw [he]
        rfl
      · rw [Bool.not_eq_true] at hcond
        rw [runFrom_cons, step3_jong_nojoin _ _ _ _ _ hjo hcond, runFrom_cons,
          step1_jung _ _ _ _ _ hb1, hP, htarget]
        have he : ([] : List Char) ++ [a] ++ [b2] = [a] ++ [b2] := by simp
        rw [he]
        rfl
    · rw [Bool.not_eq_true] at hjo
      rw [runFrom_cons, step3_cho _ _ _ _ _ hjo ha1, runFrom_cons,
        step1_jung _ _ _ _ _ hb1, hP, htarget]
      have he : ([] : List Char) ++ [a] ++ [b2] = [a] ++ [b2] := by simp
      rw [he]
      rfl

theorem run_block (l v t : Nat) (hl : l < 19) (hv : v < 21) (ht : t < 28)
    (res : List Char) (p p2 : Char) (rest : List Char) (hrest : FreshStart rest) :
    runFrom ⟨res, 0, [], p, false⟩ (disassembleChar (blockOf l v t) ++ rest) =
      runFrom ⟨res ++ [blockOf l v t], 0, [], p2, false⟩ rest := by
  rw [disassembleChar_blockOf l v t hl hv ht]
  have hcho : isChoU (CHO.getD l 'ㄱ') = true ∧ isJungU (CHO.getD l 'ㄱ') = false ∧
      choHash (CHO.getD l 'ㄱ') = some l ∧
      disassembleChar (CHO.getD l 'ㄱ') = [CHO.getD l 'ㄱ'] := choFacts ⟨l, hl⟩
  obtain ⟨hLc, hLj, hLh, -⟩ := hcho
  have hjungAll : jungHash (JUNG.getD v 'ㅏ') = some v ∧
      ((jungUnitsOf (JUNG.getD v 'ㅏ') = [JUNG.getD v 'ㅏ'] ∧
          isJungU (JUNG.getD v 'ㅏ') = true ∧ isChoU (JUNG.getD v 'ㅏ') = false ∧
          isJongU (JUNG.getD v 'ㅏ') = false ∧
          disassembleChar (JUNG.getD v 'ㅏ') = [JUNG.getD v 'ㅏ']) ∨
        (jungUnitsOf (JUNG.getD v 'ㅏ') =
            [(jungUnitsOf (JUNG.getD v 'ㅏ')).headD 'ㅏ',
              ((jungUnitsOf (JUNG.getD v 'ㅏ')).tail).headD 'ㅏ'] ∧
          (isJungU ((jungUnitsOf (JUNG.getD v 'ㅏ')).headD 'ㅏ') = true ∧
            isChoU ((jungUnitsOf (JUNG.getD v 'ㅏ')).headD 'ㅏ') = false ∧
            isJongU ((jungUnitsOf (JUNG.getD v 'ㅏ')).headD 'ㅏ') = false ∧
            disassembleChar ((jungUnitsOf (JUNG.getD v 'ㅏ')).headD 'ㅏ') =
              [(jungUnitsOf (JUNG.getD v 'ㅏ')).headD 'ㅏ']) ∧
          (isJungU (((jungUnitsOf (JUNG.getD v 'ㅏ')).tail).headD 'ㅏ') = true ∧
            isChoU (((jungUnitsOf (JUNG.getD v 'ㅏ')).tail).headD 'ㅏ') = false ∧
            isJongU (((jungUnitsOf (JUNG.getD v 'ㅏ')).tail).headD 'ㅏ') = false ∧
            disassembleChar (((jungUnitsOf (JUNG.getD v 'ㅏ')).tail).headD 'ㅏ') =
              [((jungUnitsOf (JUNG.getD v 'ㅏ')).tail).headD 'ㅏ']) ∧
          combinePair JUNGPAIRS ((jungUnitsOf (JUNG.getD v 'ㅏ')).headD 'ㅏ')
              (((jungUnitsOf (JUNG.getD v 'ㅏ')).tail).headD 'ㅏ') =
            some (JUNG.getD v 'ㅏ'))) := jungFacts ⟨v, hv⟩
  obtain ⟨hVh, hjshape⟩ := hjungAll
  have hjongAll : (jongUnitsOf t = [] ∧ t = 0) ∨
      (jongUnitsOf t = [(jongUnitsOf t).headD 'ㄱ'] ∧
        isJongU ((jongUnitsOf t).headD 'ㄱ') = true ∧
        isJungU ((jongUnitsOf t).headD 'ㄱ') = false ∧
        jongHash ((jongUnitsOf t).headD 'ㄱ') = some t ∧
        disassembleChar ((jongUnitsOf t).headD 'ㄱ') = [(jongUnitsOf t).headD 'ㄱ']) ∨
      (jongUnitsOf t = [(jongUnitsOf t).headD 'ㄱ', ((jongUnitsOf t).tail).headD 'ㄱ'] ∧
        (isJongU ((jongUnitsOf t).headD 'ㄱ') = true ∧
          isJungU ((jongUnitsOf t).headD 'ㄱ') = false ∧
          disassembleChar ((jongUnitsOf t).headD 'ㄱ') = [(jongUnitsOf t).headD 'ㄱ']) ∧
        (isJongU (((jongUnitsOf t).tail).headD 'ㄱ') = true ∧
          isJungU (((jongUnitsOf t).tail).headD 'ㄱ') = false ∧
          disassembleChar (((jongUnitsOf t).tail).headD 'ㄱ') =
            [((jongUnitsOf t).tail).headD 'ㄱ']) ∧
        combinePair JONGPAIRS ((jongUnitsOf t).headD 'ㄱ')
            (((jongUnitsOf t).tail).headD 'ㄱ') = some (JONGT.getD (t - 1) 'ㄱ') ∧
        jongHash (JONGT.getD (t - 1) 'ㄱ') = some t) := jongFacts ⟨t, ht⟩
  generalize hLdef : CHO.getD l 'ㄱ' = L at hLc hLj hLh ⊢
  rcases hjshape with ⟨hju, hVj, hVc, hVo, -⟩ |
    ⟨hju, ⟨hV1j, hV1c, hV1o, -⟩, ⟨hV2j, hV2c, hV2o, -⟩, hJoinV⟩
  · -- simple vowel
    rw [hju]
    generalize hVdef : JUNG.getD v 'ㅏ' = V at hVj hVc hVo hVh ⊢
    rcases hjongAll with ⟨hjo0, ht0⟩ |
      ⟨hjo1, hT1o, hT1j, hT1h, -⟩ |
      ⟨hjo2, ⟨hT1o, hT1j, -⟩, ⟨hT2o, hT2j, -⟩, hJoinT, hTTh⟩
    · -- no trailing
      subst ht0
      rw [hjo0]
      have he : (L :: ([V] ++ [])) ++ rest = L :: V :: rest := by simp
      rw [he, runFrom_cons, step0_cho _ _ _ _ _ hLc, runFrom_cons, step1_jung _ _ _ _ _ hVj]
      exact run_pending2 ([] ++ [L] ++ [V]) _
        (flushSeg_lv L V l v hLc hLj hVc hLh hVh) res V p2 rest hrest
    · -- simple trailing
      rw [hjo1]
      generalize hTdef : (jongUnitsOf t).headD 'ㄱ' = T at hT1o hT1j hT1h ⊢
      have he : (L :: ([V] ++ [T])) ++ rest = L :: V :: T :: rest := by simp
      rw [he, runFrom_cons, step0_cho _ _ _ _ _ hLc, runFrom_cons, step1_jung _ _ _ _ _ hVj,
        runFrom_cons, step2_jong _ _ _ _ _ hT1o]
      exact run_pending3 ([] ++ [L] ++ [V] ++ [T]) _
        (flushSeg_lvt L V T l v t hLc hLj hVc hT1j hLh hVh hT1h) res T p2 false rest hrest
    · -- compound trailing
      rw [hjo2]
      generalize hTdef : (jongUnitsOf t).headD 'ㄱ' = T1 at hT1o hT1j hJoinT ⊢
      generalize hTdef2 : ((jongUnitsOf t).tail).headD 'ㄱ' = T2 at hT2o hT2j hJoinT ⊢
      generalize hTTdef : JONGT.getD (t - 1) 'ㄱ' = TT at hJoinT hTTh ⊢
      have he : (L :: ([V] ++ [T1, T2])) ++ rest = L :: V :: T1 :: T2 :: rest := by simp
      rw [he, runFrom_cons, step0_cho _ _ _ _ _ hLc, runFrom_cons, step1_jung _ _ _ _ _ hVj,
        runFrom_cons, step2_jong _ _ _ _ _ hT1o, runFrom_cons,
        step3_jong_join _ _ _ _ hT2o (by rw [hJoinT]; rfl)]
      exact run_pending3 ([] ++ [L] ++ [V] ++ [T1] ++ [T2]) _
        (flushSeg_lvtt L V T1 T2 TT l v t hLc hLj hVc hT1j hJoinT hLh hVh hTTh)
        res T2 p2 true rest hrest
  · -- compound vowel
    rw [hju]
    generalize hV1def : (jungUnitsOf (JUNG.getD v 'ㅏ')).headD 'ㅏ' = V1 at hV1j hV1c hV1o hJoinV ⊢
    generalize hV2def : ((jungUnitsOf (JUNG.getD v 'ㅏ')).tail).headD 'ㅏ' = V2 at hV2j hV2c hV2o hJoinV ⊢
    generalize hWdef : JUNG.getD v 'ㅏ' = W at hJoinV hVh ⊢
    rcases hjongAll with ⟨hjo0, ht0⟩ |
      ⟨hjo1, hT1o, hT1j, hT1h, -⟩ |
      ⟨hjo2, ⟨hT1o, hT1j, -⟩, ⟨hT2o, hT2j, -⟩, hJoinT, hTTh⟩
    · -- no trailing
      subst ht0
      rw [hjo0]
      have he : (L :: ([V1, V2] ++ [])) ++ rest = L :: V1 :: V2 :: rest := by simp
      rw [he, runFrom_cons, step0_cho _ _ _ _ _ hLc, runFrom_cons, step1_jung _ _ _ _ _ hV1j,
        runFrom_cons, step2_jung_join _ _ _ _ _ hV2o hV2j (by rw [hJoinV]; rfl)]
      exact run_pending2 ([] ++ [L] ++ [V1] ++ [V2]) _
        (flushSeg_lvv L V1 V2 W l v hLc hLj hV1c hJoinV hLh hVh) res V2 p2 rest hrest
    · -- simple trailing
      rw [hjo1]
      generalize hTdef : (jongUnitsOf t).headD 'ㄱ' = T at hT1o hT1j hT1h ⊢
      have he : (L :: ([V1, V2] ++ [T])) ++ rest = L :: V1 :: V2 :: T :: rest := by simp
      rw [he, runFrom_cons, step0_cho _ _ _ _ _ hLc, runFrom_cons, step1_jung _ _ _ _ _ hV1j,
        runFrom_cons, step2_jung_join _ _ _ _ _ hV2o hV2j (by rw [hJoinV]; rfl),
        runFrom_cons, step2_jong _ _ _ _ _ hT1o]
      exact run_pending3 ([] ++ [L] ++ [V1] ++ [V2] ++ [T]) _
        (flushSeg_lvvt L V1 V2 W T l v t hLc hLj hV1c hJoinV hLh hVh hT1h)
        res T p2 false rest hrest
    · -- compound trailing
      rw [hjo2]
      generalize hTdef : (jongUnitsOf t).headD 'ㄱ' = T1 at hT1o hT1j hJoinT ⊢
      generalize hTdef2 : ((jongUnitsOf t).tail).headD 'ㄱ' = T2 at hT2o hT2j hJoinT ⊢
      generalize hTTdef : JONGT.getD (t - 1) 'ㄱ' = TT at hJoinT hTTh ⊢
      have he : (L :: ([V1, V2] ++ [T1, T2])) ++ rest = L :: V1 :: V2 :: T1 :: T2 :: rest := by
        simp
      rw [he, runFrom_cons, step0_cho _ _ _ _ _ hLc, runFrom_cons, step1_jung _ _ _ _ _ hV1j,
        runFrom_cons, step2_jung_join _ _ _ _ _ hV2o hV2j (by rw [hJoinV]; rfl),
        runFrom_cons, step2_jong _ _ _ _ _ hT1o, runFrom_cons,
        step3_jong_join _ _ _ _ hT2o (by rw [hJoinT]; rfl)]
      exact run_pending3 ([] ++ [L] ++ [V1] ++ [V2] ++ [T1] ++ [T2]) _
        (flushSeg_lvvtt L V1 V2 W T1 T2 TT l v t hLc hLj hV1c hJoinV hJoinT hLh hVh hTTh)
        res T2 p2 true rest hrest

/-! ### The round trip -/

theorem isBlock_repr (c : Char) (hb : isBlock c = true) :
    ∃ l v t, l < 19 ∧ v < 21 ∧ t < 28 ∧ c = blockOf l v t := by
  have hrange : 0xAC00 ≤ c.toNat ∧ c.toNat ≤ 0xD7A3 := by
    unfold isBlock at hb
    simpa using hb
  refine ⟨(c.toNat - 0xAC00) / 588, ((c.toNat - 0xAC00) % 588) / 28,
    (c.toNat - 0xAC00) % 28, by omega, by omega, by omega, ?_⟩
  have harith : 0xAC00 + ((c.toNat - 0xAC00) / 588 * 588 +
      ((c.toNat - 0xAC00) % 588) / 28 * 28 + (c.toNat - 0xAC00) % 28) = c.toNat := by
    omega
  unfold blockOf
  rw [harith, Char.ofNat_toNat]

/-- A character for which the vendored round trip is claimed: a composed
syllable block, or a character that is not an atomic unit of the script (not
a compatibility consonant and not a vowel, hence untouched by `disassemble`
and foreign to the `assemble` stage machine). -/
def GoodChar (c : Char) : Prop :=
  isBlock c = true ∨
    (isBlock c = false ∧ isChoU c = false ∧ isJungU c = false ∧ isJongU c = false ∧
      isConsU c = false)

instance (c : Char) : Decidable (GoodChar c) := by
  unfold GoodChar
  infer_instance

theorem units_stable (c : Char) (h : GoodChar c) :
    ∀ u ∈ disassembleChar c, disassembleChar u = [u] := by
  rcases h with hb | ⟨hb, h1, h2, h3, h4⟩
  · obtain ⟨l, v, t, hl, hv, ht, rfl⟩ := isBlock_repr c hb
    rw [disassembleChar_blockOf l v t hl hv ht]
    intro u hu
    rcases List.mem_cons.mp hu with rfl | hu2
    · exact (choFacts ⟨l, hl⟩).2.2.2
    · rcases List.mem_append.mp hu2 with hju | hjo
      · have hjf := jungFacts ⟨v, hv⟩
        rcases hjf.2 with ⟨hsh, -, -, -, hst⟩ | ⟨hsh, ⟨-, -, -, hst1⟩, ⟨-, -, -, hst2⟩, -⟩
        · rw [show jungUnitsOf (JUNG.getD (⟨v, hv⟩ : Fin 21).val 'ㅏ') =
              jungUnitsOf (JUNG.getD v 'ㅏ') from rfl] at hsh
          rw [hsh] at hju
          rcases List.mem_singleton.mp hju with rfl
          exact hst
        · rw [show jungUnitsOf (JUNG.getD (⟨v, hv⟩ : Fin 21).val 'ㅏ') =
              jungUnitsOf (JUNG.getD v 'ㅏ') from rfl] at hsh
          rw [hsh] at hju
          rcases List.mem_cons.mp hju with rfl | hju2
          · exact hst1
          · rcases List.mem_singleton.mp hju2 with rfl
            exact hst2
      · have hjf := jongFacts ⟨t, ht⟩
        rcases hjf with ⟨hsh, -⟩ | ⟨hsh, -, -, -, hst⟩ | ⟨hsh, ⟨-, -, hst1⟩, ⟨-, -, hst2⟩, -, -⟩
        · rw [show jongUnitsOf (⟨t, ht⟩ : Fin 28).val = jongUnitsOf t from rfl] at hsh
          rw [hsh] at hjo
          exact absurd hjo (List.not_mem_nil u)
        · rw [show jongUnitsOf (⟨t, ht⟩ : Fin 28).val = jongUnitsOf t from rfl] at hsh
          rw [hsh] at hjo
          rcases List.mem_singleton.mp hjo with rfl
          exact hst
        · rw [show jongUnitsOf (⟨t, ht⟩ : Fin 28).val = jongUnitsOf t from rfl] at hsh
          rw [hsh] at hjo
          rcases List.mem_cons.mp hjo with rfl | hjo2
          · exact hst1
          · rcases List.mem_singleton.mp hjo2 with rfl
            exact hst2
  · rw [disassembleChar_foreign c hb h4 h2]
    intro u hu
    rcases List.mem_singleton.mp hu with rfl
    exact disassembleChar_foreign u hb h4 h2

theorem freshStart_decompose (cs : List Char) (h : ∀ c ∈ cs, GoodChar c) :
    FreshStart (cs.flatMap disassembleChar) := by
  cases cs with
  | nil => exact Or.inl rfl
  | cons c t2 =>
    rcases h c (by simp) with hb | ⟨hb, h1, h2, h3, h4⟩
    · obtain ⟨l, v, t, hl, hv, ht, rfl⟩ := isBlock_repr c hb
      rw [List.flatMap_cons, disassembleChar_blockOf l v t hl hv ht]
      have hLc : isChoU (CHO.getD l 'ㄱ') = true := (choFacts ⟨l, hl⟩).1
      have hLj : isJungU (CHO.getD l 'ㄱ') = false := (choFacts ⟨l, hl⟩).2.1
      have hjf := (jungFacts ⟨v, hv⟩).2
      rcases hjf with ⟨hsh, hj1, hj2, hj3, -⟩ | ⟨hsh, ⟨hj1, hj2, hj3, -⟩, -, -⟩
      · rw [show jungUnitsOf (JUNG.getD (⟨v, hv⟩ : Fin 21).val 'ㅏ') =
            jungUnitsOf (JUNG.getD v 'ㅏ') from rfl] at hsh
        rw [hsh]
        refine Or.inr (Or.inr ⟨CHO.getD l 'ㄱ', JUNG.getD v 'ㅏ',
          jongUnitsOf t ++ t2.flatMap disassembleChar, ?_, hLc, hLj, hj1, hj2, hj3⟩)
        simp
      · rw [show jungUnitsOf (JUNG.getD (⟨v, hv⟩ : Fin 21).val 'ㅏ') =
            jungUnitsOf (JUNG.getD v 'ㅏ') from rfl] at hsh
        rw [hsh]
        refine Or.inr (Or.inr ⟨CHO.getD l 'ㄱ', (jungUnitsOf (JUNG.getD v 'ㅏ')).headD 'ㅏ',
          ((jungUnitsOf (JUNG.getD v 'ㅏ')).tail).headD 'ㅏ' ::
            (jongUnitsOf t ++ t2.flatMap disassembleChar), ?_, hLc, hLj, hj1, hj2, hj3⟩)
        simp
    · rw [List.flatMap_cons, disassembleChar_foreign c hb h4 h2, List.singleton_append]
      exact Or.inr (Or.inl ⟨c, _, rfl, h1, h2, h3⟩)

theorem runFrom_decompose (cs : List Char) (h : ∀ c ∈ cs, GoodChar c) :
    ∀ (res : List Char) (p : Char),
      runFrom ⟨res, 0, [], p, false⟩ (cs.flatMap disassembleChar) = res ++ cs := by
  induction cs with
  | nil =>
    intro res p
    show res ++ (flushSeg []).toList = res ++ []
    rfl
  | cons c t2 ih =>
    intro res p
    have ht2 : ∀ x ∈ t2, GoodChar x := fun x hx => h x (by simp [hx])
    rcases h c (by simp) with hb | ⟨hb, h1, h2, h3, h4⟩
    · obtain ⟨l, v, t, hl, hv, ht, rfl⟩ := isBlock_repr c hb
      rw [List.flatMap_cons]
      rw [run_block l v t hl hv ht res p p (t2.flatMap disassembleChar)
        (freshStart_decompose t2 ht2), ih ht2 (res ++ [blockOf l v t]) p]
      simp
    · rw [List.flatMap_cons, disassembleChar_foreign c hb h4 h2, List.singleton_append,
        runFrom_cons, step_foreign res 0 [] p false c h1 h2 h3]
      have he : res ++ (flushSeg ([] : List Char)).toList ++ [c] = res ++ [c] := by
        simp [flushSeg]
      rw [he, ih ht2 (res ++ [c]) p]
      simp

theorem composeText_decomposeText (s : String) (h : ∀ c ∈ s.data, GoodChar c) :
    composeText (String.mk (disassembleUnits s)) = s := by
  unfold composeText
  have hstab : disassembleUnits (String.mk (disassembleUnits s)) = disassembleUnits s := by
    show (disassembleUnits s).flatMap disassembleChar = disassembleUnits s
    apply flatMap_stable
    intro u hu
    rw [show disassembleUnits s = s.data.flatMap disassembleChar from rfl,
      List.mem_flatMap] at hu
    obtain ⟨c, hc, hu2⟩ := hu
    exact units_stable c (h c hc) u hu2
  rw [hstab]
  show String.mk (runFrom ⟨[], 0, [], Char.ofNat 0, false⟩ (s.data.flatMap disassembleChar)) = s
  rw [runFrom_decompose s.data h [] (Char.ofNat 0), List.nil_append]

/-- C9 counterexample: the claim includes texts of bare atomic units, but
the bare units `"ㄱㅏ"` decompose to themselves and the vendored `assemble`
reassembles them into the block `"가"`, so `compose(decompose(x)) = x` fails
for texts containing bare atomic units. -/
theorem compose_decompose_not_inverse_on_atoms :
    ('ㄱ' ∈ CONSONANTS ∧ 'ㅏ' ∈ JUNG) ∧
      composeText (decomposeKoreanText "ㄱㅏ") = "가" ∧
      composeText (decomposeKoreanText "ㄱㅏ") ≠ "ㄱㅏ" := by
  decide

/-- C9 amended: for every text consisting solely of well-formed composed
syllable blocks and characters that are not atomic units of the script (no
bare compatibility consonants or vowels), composing the decomposition
yields the original text. -/
theorem compose_decompose_roundtrip (s : String) (h : ∀ c ∈ s.data, GoodChar c) :
    composeText (decomposeKoreanText s) = s := by
  have hd : decomposeKoreanText s = String.mk (disassembleUnits s) := rfl
  rw [hd]
  exact composeText_decomposeText s h

/-- Witness for C9's amended round trip on a text mixing blocks with
compound vowels, simple and compound trailing consonants, and non-script
characters. -/
theorem compose_decompose_roundtrip_witness :
    composeText (decomposeKoreanText "한글, 갉ab 값c 과!") = "한글, 갉ab 값c 과!" :=
  compose_decompose_roundtrip _ (by decide)

end HangulSpec
